import Mathlib

/-!
Verification of the title/author normalization pipeline of `src/epub_info.py`
(repository `ikota3/images_utility`).

The Python code is a pipeline of `re.sub`/`re.search` regex rewrites over
Unicode strings.  We embed strings as `List Char` (with `String` wrappers
matching the source signatures) and implement each regex substitution as a
left-to-right scanner with an anchored matcher per pattern.  Each matcher
reproduces the Python pattern's leftmost-match semantics; for every pattern
used by this code the greedy/lazy backtracking is deterministic (analysed
pattern by pattern in comments below), so an anchored functional matcher is
faithful.

Modelling notes:
* Python `\s` (Unicode) is the whitespace set implemented in `isWS`.
* Python `\d` (Unicode decimal digit, general category Nd) is implemented
  exactly in `isDigitCh` via the table of the 66 aligned runs of ten
  decimal digits of CPython's Unicode database, and `digitVal` gives each
  digit the per-character decimal value that Python `int()` uses.
* Python `.` matches every character except `'\n'` (no DOTALL flag is used).
* `re.sub` replaces every non-overlapping match, scanning left to right and
  resuming after each replacement; `subScan` below does exactly this.  The
  scanner takes a fuel argument (always called with the string length, which
  suffices because every matcher consumes at least one character).
-/

/-- Python `\s` for `str` patterns: the Unicode whitespace characters. -/
def isWS (c : Char) : Bool :=
  let n := c.toNat
  (9 ≤ n && n ≤ 13) || (28 ≤ n && n ≤ 31) || n == 32 || n == 0x85 || n == 0xA0 ||
  n == 0x1680 || (0x2000 ≤ n && n ≤ 0x200A) || n == 0x2028 || n == 0x2029 ||
  n == 0x202F || n == 0x205F || n == 0x3000

/-- The bases of the 66 aligned runs of ten decimal-digit codepoints
(Unicode general category Nd) that CPython's `\d` matches for `str`
patterns; every run is `base .. base+9` and the digit's decimal value is
its offset in the run. -/
def ndBases : List Nat :=
  [0x30, 0x660, 0x6F0, 0x7C0, 0x966, 0x9E6, 0xA66, 0xAE6, 0xB66, 0xBE6,
   0xC66, 0xCE6, 0xD66, 0xDE6, 0xE50, 0xED0, 0xF20, 0x1040, 0x1090, 0x17E0,
   0x1810, 0x1946, 0x19D0, 0x1A80, 0x1A90, 0x1B50, 0x1BB0, 0x1C40, 0x1C50, 0xA620,
   0xA8D0, 0xA900, 0xA9D0, 0xA9F0, 0xAA50, 0xABF0, 0xFF10, 0x104A0, 0x10D30, 0x11066,
   0x110F0, 0x11136, 0x111D0, 0x112F0, 0x11450, 0x114D0, 0x11650, 0x116C0, 0x11730, 0x118E0,
   0x11950, 0x11C50, 0x11D50, 0x11DA0, 0x16A60, 0x16AC0, 0x16B50, 0x1D7CE, 0x1D7D8, 0x1D7E2,
   0x1D7EC, 0x1D7F6, 0x1E140, 0x1E2F0, 0x1E950, 0x1FBF0]

/-- Python `\d` for `str` patterns: the Unicode decimal digits (Nd). -/
def isDigitCh (c : Char) : Bool :=
  ndBases.any (fun b => b ≤ c.toNat && c.toNat ≤ b + 9)

/-- Numeric value of a decimal digit accepted by `isDigitCh`: its offset in
its run, which is the per-character value Python `int()` assigns it. -/
def digitVal (c : Char) : Nat :=
  match ndBases.find? (fun b => b ≤ c.toNat && c.toNat ≤ b + 9) with
  | some b => c.toNat - b
  | none => 0

/-- Python `int(...)` on a run of decimal digits. -/
def digitsToNat (l : List Char) : Nat :=
  l.foldl (fun n c => 10 * n + digitVal c) 0

/-- Fueled decimal printer (least significant digit first, accumulator holds
the already-printed lower digits). -/
def decAux : Nat → Nat → List Char → List Char
  | 0, _, acc => acc
  | fuel + 1, n, acc =>
    let d := Char.ofNat (48 + n % 10)
    if n / 10 = 0 then d :: acc else decAux fuel (n / 10) (d :: acc)

/-- Python `str(n)` for a natural number. -/
def natToDecimal (n : Nat) : List Char := decAux (n + 1) n []

/-- Python `str.zfill(2)`: left-pad with `'0'` to length at least 2. -/
def zfill2 (l : List Char) : List Char := List.replicate (2 - l.length) '0' ++ l

/-- Python `str(int(digits)).zfill(2)`. -/
def padNum (n : Nat) : List Char := zfill2 (natToDecimal n)

/-- The character class `[Ａ-Ｚａ-ｚ０-９]` of fullwidth Latin letters and
digits (U+FF21-FF3A, U+FF41-FF5A, U+FF10-FF19). -/
def isFwAlnum (c : Char) : Bool :=
  let n := c.toNat
  (0xFF21 ≤ n && n ≤ 0xFF3A) || (0xFF41 ≤ n && n ≤ 0xFF5A) || (0xFF10 ≤ n && n ≤ 0xFF19)

/-- Pointwise action of `replace_fullwidth_alpha_numeral_to_halfwidth`:
`chr(ord(c) - 0xFEE0)` on the fullwidth alphanumeric class. -/
def toHalfwidth (c : Char) : Char :=
  if isFwAlnum c then Char.ofNat (c.toNat - 0xFEE0) else c

/-- The character class `[<>:"\/\\|!?*]` of `replace_unsafe_symbol_to_safe_symbol`. -/
def unsafeChars : List Char := ['<', '>', ':', '"', '/', '\\', '|', '!', '?', '*']

/-- Membership in the unsafe-symbol class. -/
def isUnsafe (c : Char) : Bool := unsafeChars.contains c

/-- Pointwise action of `replace_unsafe_symbol_to_safe_symbol`:
`chr(ord(c) + 0xFEE0)` on the unsafe-symbol class. -/
def toSafe (c : Char) : Char :=
  if isUnsafe c then Char.ofNat (c.toNat + 0xFEE0) else c

/-- The character class `[（）]` of fullwidth round brackets. -/
def isFwParen (c : Char) : Bool := c == '（' || c == '）'

/-- Pointwise action of `replace_fullwidth_round_brackets_to_halfwidth`. -/
def toHalfParen (c : Char) : Char :=
  if isFwParen c then Char.ofNat (c.toNat - 0xFEE0) else c

/-- The character class `[：:]` of `format_book_title`'s colon rewrite. -/
def isColon (c : Char) : Bool := c == '：' || c == ':'

/-- Pointwise action of `re.sub(r'[：:]', ' ', ...)`. -/
def colonToSpace (c : Char) : Char := if isColon c then ' ' else c

/-- `replace_fullwidth_alpha_numeral_to_halfwidth` from the source. -/
def replace_fullwidth_alpha_numeral_to_halfwidth (text : String) : String :=
  String.mk (text.data.map toHalfwidth)

/-- `replace_unsafe_symbol_to_safe_symbol` from the source. -/
def replace_unsafe_symbol_to_safe_symbol (text : String) : String :=
  String.mk (text.data.map toSafe)

/-- `replace_fullwidth_round_brackets_to_halfwidth` from the source. -/
def replace_fullwidth_round_brackets_to_halfwidth (text : String) : String :=
  String.mk (text.data.map toHalfParen)

/-!
### The generic substitution scanner

A matcher `m` receives the current suffix and, when the pattern matches
anchored there, returns the replacement text together with the rest of the
string after the consumed part.  `subScan` is `re.sub`: scan left to right,
on a match emit the replacement and resume after it, otherwise keep one
character and move on.  Every matcher below consumes at least one character
when it matches, so fuel `s.length` always suffices.
-/

/-- Left-to-right global substitution, the semantics of `re.sub`. -/
def subScan (m : List Char → Option (List Char × List Char)) : Nat → List Char → List Char
  | _, [] => []
  | 0, s => s
  | fuel + 1, c :: cs =>
    match m (c :: cs) with
    | some (r, rest) => r ++ subScan m fuel rest
    | none => c :: subScan m fuel cs

/-- `true` when the matcher matches at no position of the string
(so the corresponding `re.sub` is the identity). -/
def scanNoneB (m : List Char → Option (List Char × List Char)) : List Char → Bool
  | [] => true
  | c :: cs => (m (c :: cs)).isNone && scanNoneB m cs

/-- The extension token `.epub` that the numbering rules are anchored to. -/
def extTok : List Char := ['.', 'e', 'p', 'u', 'b']

/-- Does the string start with the literal `.epub`? -/
def hasExtAt (s : List Char) : Bool := extTok.isPrefixOf s

/-- Does `.epub` occur anywhere in the string? -/
def hasExtSomewhere : List Char → Bool
  | [] => false
  | c :: cs => hasExtAt (c :: cs) || hasExtSomewhere cs

/-!
### Whitespace collapsing and the final strip

`re.sub(r'\s+', ' ', text)`: a match is a maximal whitespace run (greedy
`\s+`; a match can only start at the head of a run because the scan is
leftmost).  `re.sub(r'\s+(?=\.epub)', '', text)`: greedy `\s+` takes the
maximal run and the lookahead must then see `.epub`; backtracking to a
shorter run always fails because the lookahead would start at a whitespace
character, which is not `'.'`.
-/

/-- Matcher for `\s+` (replaced by a single space). -/
def mCollapse (s : List Char) : Option (List Char × List Char) :=
  match s with
  | c :: _ => if isWS c then some ([' '], s.dropWhile isWS) else none
  | [] => none

/-- Matcher for `\s+(?=\.epub)` (deleted). -/
def mStripExt (s : List Char) : Option (List Char × List Char) :=
  match s with
  | c :: _ =>
    if isWS c then
      let rest := s.dropWhile isWS
      if hasExtAt rest then some ([], rest) else none
    else none
  | [] => none

/-- `re.sub(r'\s+', ' ', text)`. -/
def collapseSpaces (s : List Char) : List Char := subScan mCollapse s.length s

/-- `re.sub(r'\s+(?=\.epub)', '', text)`. -/
def stripSpacesBeforeExt (s : List Char) : List Char := subScan mStripExt s.length s

/-!
### Bracketed-annotation stripping (stage 4)

`re.sub(r'【.+?(付き|増量版|無料版?|出版|誌版|特別版?|特典付き?|漫画付き?)】', '', t)` and
`re.sub(r'[(＜〈].*?(BOOKS|...|編集部)[〉＞)]', '', t)`.

The lazy `.+?`/`.*?` grows one character at a time (each grown character must
not be `'\n'`); at each boundary the token alternation is tried left to
right, an optional trailing character greedily (longer form first), and the
closing bracket must follow the token immediately.  `tokAt` tries the
flattened alternation (with `X?` expanded to the two forms, longer first) and
checks the closing character; `annScan` implements the lazy growth.
-/

/-- Try each token in order; on a token match the very next character must
satisfy `close` (the closing-bracket class), which is then consumed. -/
def tokAt (toks : List (List Char)) (close : Char → Bool) (s : List Char) : Option (List Char) :=
  match toks with
  | [] => none
  | t :: ts =>
    if t.isPrefixOf s then
      match s.drop t.length with
      | c :: r => if close c then some r else tokAt ts close s
      | [] => tokAt ts close s
    else tokAt ts close s

/-- Lazy scan for `.*?(tok)close`: try the token at the current boundary,
otherwise grow the lazy part by one non-newline character. -/
def annScan (toks : List (List Char)) (close : Char → Bool) : List Char → Option (List Char)
  | [] => none
  | c :: cs =>
    match tokAt toks close (c :: cs) with
    | some r => some r
    | none => if c = '\n' then none else annScan toks close cs

/-- The marketing-suffix alternation of the `【...】` rule, flattened with the
optional characters expanded (greedy `?`: longer form first). -/
def ann1Toks : List (List Char) :=
  [['付', 'き'], ['増', '量', '版'], ['無', '料', '版'], ['無', '料'], ['出', '版'],
   ['誌', '版'], ['特', '別', '版'], ['特', '別'], ['特', '典', '付', 'き'],
   ['特', '典', '付'], ['漫', '画', '付', 'き'], ['漫', '画', '付']]

/-- The publisher/imprint alternation of the `[(＜〈]...[〉＞)]` rule, flattened
with the optional characters expanded (greedy `?`: longer form first). -/
def ann2Toks : List (List Char) :=
  [['B', 'O', 'O', 'K', 'S'], ['C', 'r', 'e', 'a', 't', 'i', 'v', 'e'],
   ['D', 'X', '版'], ['D', 'X'], ['G', 'A', 'M', 'E', 'S'], ['J', 'O', 'K', 'E', 'R'],
   ['N', 'e', 't', 'w', 'o', 'r', 'k'], ['N', 'O', 'V', 'E', 'L', 'S'],
   ['N', 'O', 'V', 'E', 'L', ' ', '0'], ['P', 'u', 'b', 'l', 'i', 's', 'h', 'i', 'n', 'g'],
   ['エ', 'イ', 'ジ'], ['エ', 'ク', 'ス', 'ト', 'ラ'], ['コ', 'ミ', 'ッ', 'ク'],
   ['シ', 'リ', 'ー', 'ズ'], ['ス'], ['ノ', 'ベ', 'ル', 'ズ'], ['ラ', 'ノ', 'ベ'],
   ['限', '定', '版'], ['小', '説'], ['新', '装', '版'], ['電', '子', '版'],
   ['特', '典', '付', 'き'], ['特', '別', '版'], ['文', '芸'], ['文', '庫', 'J'],
   ['文', '庫'], ['編', '集', '部']]

/-- Closing class `】` of the first annotation rule. -/
def isClose1 (c : Char) : Bool := c == '】'

/-- Opening class `[(＜〈]` of the second annotation rule. -/
def isOpen2 (c : Char) : Bool := c == '(' || c == '＜' || c == '〈'

/-- Closing class `[〉＞)]` of the second annotation rule. -/
def isClose2 (c : Char) : Bool := c == '〉' || c == '＞' || c == ')'

/-- Matcher for `【.+?(marketing token)】` (deleted): the lazy part needs at
least one (non-newline) character before the token. -/
def mAnn1 (s : List Char) : Option (List Char × List Char) :=
  match s with
  | b :: c :: cs =>
    if b = '【' then
      if c = '\n' then none
      else (annScan ann1Toks isClose1 cs).map (fun r => (([] : List Char), r))
    else none
  | _ => none

/-- Matcher for `[(＜〈].*?(publisher token)[〉＞)]` (deleted): the lazy part may
be empty. -/
def mAnn2 (s : List Char) : Option (List Char × List Char) :=
  match s with
  | c :: cs =>
    if isOpen2 c then (annScan ann2Toks isClose2 cs).map (fun r => (([] : List Char), r))
    else none
  | [] => none

/-- The `re.sub` deleting `【...】` marketing annotations (line 165). -/
def stripPromoSpans (s : List Char) : List Char := subScan mAnn1 s.length s

/-- The `re.sub` deleting `(...)`/`＜...＞`/`〈...〉` publisher spans (line 166). -/
def stripPublisherSpans (s : List Char) : List Char := subScan mAnn2 s.length s

/-!
### Parenthesized-number padding (`pad_numeric_only_string_enclosed_in_round_brackets`)

Search `\s*\(\s*(\d+)\s*\)\s+` (trailing whitespace required); if it matches,
`re.sub(r'\s*\(\s*\d+\s*\)\s*', ' NN ', text)` replaces every occurrence with
the number of the first search match.  Then search
`\s*\(\s*(\d+)\s*\)\s*\.epub`; if it matches,
`re.sub(r'\s*\(\s*\d+\s*\)\s*(?=\.epub)', ' NN', text)`.
For all of these the greedy runs are forced (no productive backtracking:
after a maximal `\s*`/`\d+` run the next character determines failure).
-/

/-- Anchored `\s*\(\s*(\d+)\s*\)` returning the digit group and the rest
after `)`. -/
def parenCoreAt (s : List Char) : Option (List Char × List Char) :=
  match s.dropWhile isWS with
  | a :: s2 =>
    if a = '(' then
      let s3 := s2.dropWhile isWS
      let d := s3.takeWhile isDigitCh
      if d = [] then none
      else
        match (s3.dropWhile isDigitCh).dropWhile isWS with
        | b :: s5 => if b = ')' then some (d, s5) else none
        | [] => none
    else none
  | [] => none

/-- Anchored search attempt for `\s*\(\s*(\d+)\s*\)\s+`. -/
def parenAAt (s : List Char) : Option (List Char) :=
  match parenCoreAt s with
  | some (d, s5) =>
    match s5 with
    | c :: _ => if isWS c then some d else none
    | [] => none
  | none => none

/-- Anchored search attempt for `\s*\(\s*(\d+)\s*\)\s*\.epub`. -/
def parenBAt (s : List Char) : Option (List Char) :=
  match parenCoreAt s with
  | some (d, s5) => if hasExtAt (s5.dropWhile isWS) then some d else none
  | none => none

/-- Leftmost-match search: try the anchored attempt at every position, left
to right (the semantics of `re.search`, returning the match's digit group). -/
def scanFind (f : List Char → Option (List Char)) : List Char → Option (List Char)
  | [] => none
  | c :: cs =>
    match f (c :: cs) with
    | some d => some d
    | none => scanFind f cs

/-- `re.search(r'\s*\(\s*(\d+)\s*\)\s+', text)`: leftmost match's digit group. -/
def findParenA (s : List Char) : Option (List Char) := scanFind parenAAt s

/-- `re.search(r'\s*\(\s*(\d+)\s*\)\s*\.epub', text)`: leftmost match's digit group. -/
def findParenB (s : List Char) : Option (List Char) := scanFind parenBAt s

/-- Matcher for the substitution pattern `\s*\(\s*\d+\s*\)\s*`. -/
def mParenSub (repl : List Char) (s : List Char) : Option (List Char × List Char) :=
  match parenCoreAt s with
  | some (_, s5) => some (repl, s5.dropWhile isWS)
  | none => none

/-- Matcher for the substitution pattern `\s*\(\s*\d+\s*\)\s*(?=\.epub)`
(the lookahead is not consumed). -/
def mParenExt (repl : List Char) (s : List Char) : Option (List Char × List Char) :=
  match parenCoreAt s with
  | some (_, s5) =>
    let rest := s5.dropWhile isWS
    if hasExtAt rest then some (repl, rest) else none
  | none => none

/-- First block of `pad_numeric_only_string_enclosed_in_round_brackets`. -/
def padParenSpaceRule (s : List Char) : List Char :=
  match findParenA s with
  | some g => subScan (mParenSub (' ' :: padNum (digitsToNat g) ++ [' '])) s.length s
  | none => s

/-- Second block of `pad_numeric_only_string_enclosed_in_round_brackets`. -/
def padParenExtRule (s : List Char) : List Char :=
  match findParenB s with
  | some g => subScan (mParenExt (' ' :: padNum (digitsToNat g))) s.length s
  | none => s

/-- `pad_numeric_only_string_enclosed_in_round_brackets` from the source. -/
def pad_numeric_only_string_enclosed_in_round_brackets (text : List Char) : List Char :=
  padParenExtRule (padParenSpaceRule text)

/-!
### Kanji-number padding (`pad_kanji_number`)

The character class is built with `'|'.join(kanji_numbers)`, so it literally
contains `'|'` besides the eleven kanji numerals.  The search pattern
`\s*([class])\s*巻?\s*` matches (with possibly empty surroundings) at the
first class character of the string, whose mapped value
(`kanji_mapping.get`, `None` for `'|'`) becomes the replacement `' v '`;
the substitution replaces every occurrence of `\s*[class]\s*巻?\s*`.
-/

/-- The eleven kanji numerals of `kanji_numbers`. -/
def kanjiNumbers : List Char :=
  ['壱', '弐', '参', '肆', '伍', '陸', '漆', '捌', '玖', '拾', '什']

/-- The regex character class `[壱|弐|...|什]`: the kanji numerals plus the
`'|'` separators that `'|'.join` interleaves. -/
def kanjiClass : List Char := kanjiNumbers ++ ['|']

/-- `kanji_mapping`: `dict(zip(kanji_numbers, [str(1)..str(10), '10']))`. -/
def kanjiPairs : List (Char × List Char) :=
  [('壱', ['1']), ('弐', ['2']), ('参', ['3']), ('肆', ['4']), ('伍', ['5']),
   ('陸', ['6']), ('漆', ['7']), ('捌', ['8']), ('玖', ['9']), ('拾', ['1', '0']),
   ('什', ['1', '0'])]

/-- `kanji_mapping.get(c)`. -/
def kanjiDict (c : Char) : Option (List Char) := List.lookup c kanjiPairs

/-- The replacement `f' {kanji_mapping.get(c)} '` — the Python `None` renders
as the text `None` when `c` is not a dictionary key. -/
def kanjiRepl (c : Char) : List Char :=
  ' ' :: (kanjiDict c).getD ['N', 'o', 'n', 'e'] ++ [' ']

/-- Matcher for the substitution pattern `\s*[class]\s*巻?\s*`. -/
def mKanji (repl : List Char) (s : List Char) : Option (List Char × List Char) :=
  match s.dropWhile isWS with
  | c :: s2 =>
    if kanjiClass.contains c then
      match s2.dropWhile isWS with
      | b :: s3 => if b = '巻' then some (repl, s3.dropWhile isWS) else some (repl, b :: s3)
      | [] => some (repl, [])
    else none
  | [] => none

/-- `pad_kanji_number` from the source: the search group is the first class
character of the string (all other pattern parts are optional). -/
def pad_kanji_number (text : List Char) : List Char :=
  match text.find? (fun c => kanjiClass.contains c) with
  | some c => subScan (mKanji (kanjiRepl c)) text.length text
  | none => text

/-!
### Circled-digit padding (the four symbol-number blocks)

Each block: search `\s*([lo-hi])\s*巻?\s*`; the group is the first in-range
character `c`; the replacement is `f' {chr(ord(c) - off).zfill(2)} '`
(a single digit character, zero-filled to two); the substitution replaces
every occurrence of `\s*[lo-hi]\s*巻?\s*`.
-/

/-- Range test for a circled-digit block (a regex character-class range is a
codepoint interval). -/
def inRange (lo hi c : Char) : Bool := lo.toNat ≤ c.toNat && c.toNat ≤ hi.toNat

/-- Matcher for the substitution pattern `\s*[lo-hi]\s*巻?\s*`. -/
def mCircled (lo hi : Char) (repl : List Char) (s : List Char) :
    Option (List Char × List Char) :=
  match s.dropWhile isWS with
  | c :: s2 =>
    if inRange lo hi c then
      match s2.dropWhile isWS with
      | b :: s3 => if b = '巻' then some (repl, s3.dropWhile isWS) else some (repl, b :: s3)
      | [] => some (repl, [])
    else none
  | [] => none

/-- One circled-digit block of `format_book_title`. -/
def padCircledRule (lo hi : Char) (off : Nat) (s : List Char) : List Char :=
  match s.find? (inRange lo hi) with
  | some c => subScan (mCircled lo hi (' ' :: zfill2 [Char.ofNat (c.toNat - off)] ++ [' '])) s.length s
  | none => s

/-- The four circled-digit blocks in source order:
`①-⑨` (− 0x242F), `⑴-⑼` (− 0x2443), `⒈-⒐` (− 0x2457), `⓵-⓽` (− 0x24C4). -/
def padCircledBlocks (s : List Char) : List Char :=
  padCircledRule '⓵' '⓽' 0x24C4
    (padCircledRule '⒈' '⒐' 0x2457
      (padCircledRule '⑴' '⑼' 0x2443
        (padCircledRule '①' '⑨' 0x242F s)))

/-!
### Bare digits before the extension

Search `(?<=\s)?(\d+)(?=巻?\s*\.epub)` — the optional lookbehind always
succeeds, so the group is the first maximal digit run followed by an optional
`巻`, whitespace and `.epub`.  Substitution
`re.sub(r'\s*\d+巻?\s*(?=\.epub)', ' NN', text)`.
-/

/-- Anchored search attempt for `(\d+)(?=巻?\s*\.epub)`. -/
def bareAt (s : List Char) : Option (List Char) :=
  match s with
  | c :: _ =>
    if isDigitCh c then
      let d := s.takeWhile isDigitCh
      match s.dropWhile isDigitCh with
      | b :: r =>
        if b = '巻' then (if hasExtAt (r.dropWhile isWS) then some d else none)
        else if hasExtAt ((b :: r).dropWhile isWS) then some d else none
      | [] => if hasExtAt ([] : List Char) then some d else none
    else none
  | [] => none

/-- `re.search(r'(?<=\s)?(\d+)(?=巻?\s*\.epub)', text)`: leftmost group. -/
def findBare (s : List Char) : Option (List Char) := scanFind bareAt s

/-- Matcher for the substitution pattern `\s*\d+巻?\s*(?=\.epub)`. -/
def mBare (repl : List Char) (s : List Char) : Option (List Char × List Char) :=
  let s1 := s.dropWhile isWS
  let d := s1.takeWhile isDigitCh
  if d = [] then none
  else
    match s1.dropWhile isDigitCh with
    | b :: s3 =>
      if b = '巻' then
        let rest := s3.dropWhile isWS
        if hasExtAt rest then some (repl, rest) else none
      else
        let rest := (b :: s3).dropWhile isWS
        if hasExtAt rest then some (repl, rest) else none
    | [] => if hasExtAt ([] : List Char) then some (repl, []) else none

/-- The bare-digit numbering rule of `format_book_title` (lines 198-201). -/
def padBareRule (s : List Char) : List Char :=
  match findBare s with
  | some g => subScan (mBare (' ' :: padNum (digitsToNat g))) s.length s
  | none => s

/-!
### The full pipelines
-/

/-- Stages 1-3 of `format_book_title`: the three pointwise character rewrites. -/
def titleCharRewrites (s : List Char) : List Char :=
  ((s.map toHalfwidth).map toSafe).map toHalfParen

/-- Stages 1-6 of `format_book_title`: character rewrites, annotation
stripping, colon replacement and whitespace collapsing. -/
def titleStages1to6 (s : List Char) : List Char :=
  collapseSpaces ((stripPublisherSpans (stripPromoSpans (titleCharRewrites s))).map colonToSpace)

/-- The pipeline through the parenthesized-number rules (the string on which
`pad_kanji_number` is invoked inside `format_book_title`). -/
def titleThroughParenRules (s : List Char) : List Char :=
  pad_numeric_only_string_enclosed_in_round_brackets (titleStages1to6 s)

/-- `format_book_title` on the character-list level. -/
def formatTitleList (s : List Char) : List Char :=
  stripSpacesBeforeExt (collapseSpaces
    (padBareRule (padCircledBlocks (pad_kanji_number (titleThroughParenRules s)))))

/-- `format_book_title` from the source. -/
def format_book_title (book_title : String) : String :=
  String.mk (formatTitleList book_title.data)

/-- `format_book_author` from the source: the fullwidth-alphanumeric rewrite
followed by the unsafe-symbol rewrite, and nothing else. -/
def format_book_author (book_author : String) : String :=
  replace_unsafe_symbol_to_safe_symbol
    (replace_fullwidth_alpha_numeral_to_halfwidth book_author)

/-- The title pipeline with the extension-anchored steps removed: stages 1-6,
the first parenthesized rule, the kanji rule and the circled-digit blocks,
followed by the final whitespace collapse — but no `(...)`-before-extension
rule, no bare-digit rule and no strip of spaces before the extension. -/
def format_book_title_without_extension_rules (book_title : String) : String :=
  String.mk (collapseSpaces
    (padCircledBlocks (pad_kanji_number (padParenSpaceRule (titleStages1to6 book_title.data)))))

/-- The character-level safety guaranteed for `CanonicalTitle`: no unsafe
symbol, no fullwidth Latin letter or digit, no fullwidth round bracket. -/
def safeOutChar (c : Char) : Bool := !(isUnsafe c) && !(isFwAlnum c) && !(isFwParen c)

/-- The character pool that any kanji-rule replacement is drawn from. -/
def kanjiPool : List Char :=
  [' ', 'N', 'o', 'n', 'e', '1', '2', '3', '4', '5', '6', '7', '8', '9', '0']

/-- Whitespace discipline of a canonical string: every whitespace character
is a plain space and no two whitespace characters are adjacent. -/
def wsOK : List Char → Bool
  | [] => true
  | [c] => !(isWS c) || (c == ' ')
  | c :: d :: rest => (!(isWS c) || (c == ' ' && !(isWS d))) && wsOK (d :: rest)

/-- Membership in any of the four circled-digit ranges. -/
def isCircledAny (c : Char) : Bool :=
  inRange '①' '⑨' c || inRange '⑴' '⑼' c || inRange '⒈' '⒐' c || inRange '⓵' '⓽' c

/-- Strict canonical form: no fullwidth alphanumerics, no unsafe symbols, no
fullwidth round brackets, no colons, no kanji-class and no circled-digit
characters; the annotation matchers, both parenthesized-number searches, the
bare-digit search and the strip-before-extension matcher all fail; and the
whitespace discipline holds.  On such strings every pipeline stage is the
identity. -/
def canonicalTitleB (s : String) : Bool :=
  (s.data.all fun c => !(isFwAlnum c) && !(isUnsafe c) && !(isFwParen c) && !(isColon c)
    && !(kanjiClass.contains c) && !(isCircledAny c))
  && scanNoneB mAnn1 s.data && scanNoneB mAnn2 s.data
  && wsOK s.data
  && (findParenA s.data).isNone && (findParenB s.data).isNone && (findBare s.data).isNone
  && scanNoneB mStripExt s.data

/-!
## Generic lemmas about the scanner
-/

/-- A list is a suffix of itself with one element consed on. -/
theorem sfx_cons (c : Char) (l : List Char) : l <:+ c :: l := ⟨[c], rfl⟩

/-- Members of a suffix are members of the list. -/
theorem sfx_mem {l₁ l₂ : List Char} {a : Char} (h : l₁ <:+ l₂) (ha : a ∈ l₁) : a ∈ l₂ := by
  rcases h with ⟨t, rfl⟩
  exact List.mem_append_right t ha

/-- `dropWhile` yields a suffix. -/
theorem sfx_dropWhile (p : Char → Bool) : ∀ l : List Char, l.dropWhile p <:+ l := by
  intro l
  induction l with
  | nil => exact ⟨[], rfl⟩
  | cons c cs ih =>
    by_cases h : p c = true
    · rw [List.dropWhile_cons, if_pos h]
      exact ih.trans (sfx_cons c cs)
    · rw [List.dropWhile_cons, if_neg h]

/-- A suffix of `c :: cs` is the whole list or a suffix of `cs`. -/
theorem sfx_cases {t : List Char} {c : Char} {cs : List Char} (h : t <:+ c :: cs) :
    t = c :: cs ∨ t <:+ cs := by
  rcases h with ⟨pre, hpre⟩
  cases pre with
  | nil => exact Or.inl hpre
  | cons p ps =>
    right
    injection hpre with h1 h2
    exact ⟨ps, h2⟩

/-- Provenance through the scanner: if every replacement emitted by the
matcher satisfies `P` and the matcher's rest is drawn from its input, then
`subScan` preserves `P` on all characters. -/
theorem subScan_all {m : List Char → Option (List Char × List Char)} {P : Char → Prop}
    (hm : ∀ t r rest, m t = some (r, rest) →
      (∀ c ∈ r, P c) ∧ ∀ c ∈ rest, c ∈ t) :
    ∀ (fuel : Nat) (s : List Char), (∀ c ∈ s, P c) →
      ∀ c ∈ subScan m fuel s, P c := by
  intro fuel
  induction fuel with
  | zero =>
    intro s hs c hc
    cases s with
    | nil => simp [subScan] at hc
    | cons a as => exact hs c (by simpa [subScan] using hc)
  | succ n ih =>
    intro s hs c hc
    cases s with
    | nil => simp [subScan] at hc
    | cons a as =>
      rw [subScan] at hc
      cases hmt : m (a :: as) with
      | none =>
        rw [hmt] at hc
        rcases List.mem_cons.mp hc with h | h
        · exact hs c (h ▸ List.mem_cons_self a as)
        · exact ih as (fun x hx => hs x (List.mem_cons_of_mem a hx)) c h
      | some pr =>
        obtain ⟨r, rest⟩ := pr
        rw [hmt] at hc
        rcases List.mem_append.mp hc with h | h
        · exact (hm _ _ _ hmt).1 c h
        · exact ih rest (fun x hx => hs x ((hm _ _ _ hmt).2 x hx)) c h

/-- If the matcher matches nowhere (in the `scanNoneB` sense), the
substitution is the identity. -/
theorem subScan_self_of_scanNone (m : List Char → Option (List Char × List Char)) :
    ∀ s : List Char, scanNoneB m s = true → ∀ fuel, subScan m fuel s = s := by
  intro s
  induction s with
  | nil => intro _ fuel; cases fuel <;> simp [subScan]
  | cons c cs ih =>
    intro h fuel
    rw [scanNoneB, Bool.and_eq_true] at h
    cases fuel with
    | zero => simp [subScan]
    | succ n =>
      rw [subScan, Option.isNone_iff_eq_none.mp h.1]
      rw [ih h.2 n]

/-- If, on every suffix, any match of the matcher replaces the consumed part
by itself (and makes progress, with a rest drawn from the tail), the
substitution is the identity. -/
theorem subScan_self_of_fix (m : List Char → Option (List Char × List Char)) :
    ∀ (fuel : Nat) (s : List Char), s.length ≤ fuel →
      (∀ t, t <:+ s → ∀ r rest, m t = some (r, rest) →
        r ++ rest = t ∧ rest.length < t.length ∧ rest <:+ t) →
      subScan m fuel s = s := by
  intro fuel
  induction fuel with
  | zero =>
    intro s hlen _
    cases s with
    | nil => simp [subScan]
    | cons a as => simp at hlen
  | succ n ih =>
    intro s hlen hfix
    cases s with
    | nil => simp [subScan]
    | cons a as =>
      rw [subScan]
      cases hmt : m (a :: as) with
      | none =>
        rw [ih as (by simpa using Nat.le_of_succ_le_succ hlen)
          (fun t ht => hfix t (ht.trans (sfx_cons a as)))]
      | some pr =>
        obtain ⟨r, rest⟩ := pr
        obtain ⟨heq, hlt, hsfx⟩ := hfix (a :: as) ⟨[], rfl⟩ r rest hmt
        have hr : rest.length ≤ n := by
          simp only [List.length_cons] at hlt hlen
          omega
        show r ++ subScan m n rest = a :: as
        rw [ih rest hr (fun t ht => hfix t (ht.trans hsfx))]
        exact heq

/-!
## Per-matcher analysis lemmas
-/

/-- A string starting with `.epub` contains `'.'`. -/
theorem hasExtAt_mem {r : List Char} (h : hasExtAt r = true) : '.' ∈ r := by
  cases r with
  | nil => simp [hasExtAt, extTok, List.isPrefixOf] at h
  | cons b r' =>
    simp only [hasExtAt, extTok, List.isPrefixOf, Bool.and_eq_true, beq_iff_eq] at h
    exact h.1 ▸ List.mem_cons_self b r'

/-- Specification of `mCollapse`: the replacement is a single space and the
rest is a suffix of the input. -/
theorem mCollapse_spec {t r rest : List Char} (h : mCollapse t = some (r, rest)) :
    r = [' '] ∧ rest <:+ t := by
  cases t with
  | nil => simp [mCollapse] at h
  | cons c cs =>
    by_cases hw : isWS c = true
    · rw [mCollapse, if_pos hw, Option.some.injEq, Prod.mk.injEq] at h
      exact ⟨h.1.symm, h.2 ▸ sfx_dropWhile isWS (c :: cs)⟩
    · rw [mCollapse, if_neg hw] at h
      exact absurd h (by simp)

/-- Specification of `mStripExt`: empty replacement, the rest is a suffix,
and the input must contain a `'.'`. -/
theorem mStripExt_spec {t r rest : List Char} (h : mStripExt t = some (r, rest)) :
    r = [] ∧ rest <:+ t ∧ '.' ∈ t := by
  cases t with
  | nil => simp [mStripExt] at h
  | cons c cs =>
    by_cases hw : isWS c = true
    · rw [mStripExt, if_pos hw] at h
      by_cases he : hasExtAt ((c :: cs).dropWhile isWS) = true
      · rw [if_pos he, Option.some.injEq, Prod.mk.injEq] at h
        refine ⟨h.1.symm, h.2 ▸ sfx_dropWhile isWS (c :: cs), ?_⟩
        exact sfx_mem (sfx_dropWhile isWS (c :: cs)) (hasExtAt_mem he)
      · rw [if_neg he] at h
        exact absurd h (by simp)
    · rw [mStripExt, if_neg hw] at h
      exact absurd h (by simp)

/-- `tokAt` returns a suffix of its input. -/
theorem tokAt_sfx {close : Char → Bool} :
    ∀ {toks : List (List Char)} {s r : List Char}, tokAt toks close s = some r → r <:+ s := by
  intro toks
  induction toks with
  | nil => intro s r h; simp [tokAt] at h
  | cons t ts ih =>
    intro s r h
    rw [tokAt] at h
    by_cases hp : t.isPrefixOf s = true
    · rw [if_pos hp] at h
      cases hd : s.drop t.length with
      | nil => rw [hd] at h; exact ih h
      | cons c r' =>
        rw [hd] at h
        dsimp only at h
        by_cases hc : close c = true
        · rw [if_pos hc, Option.some.injEq] at h
          subst h
          exact (sfx_cons c _).trans (hd ▸ List.drop_suffix t.length s)
        · rw [if_neg hc] at h; exact ih h
    · rw [if_neg hp] at h; exact ih h

/-- `annScan` returns a suffix of its input. -/
theorem annScan_sfx {toks : List (List Char)} {close : Char → Bool} :
    ∀ {s r : List Char}, annScan toks close s = some r → r <:+ s := by
  intro s
  induction s with
  | nil => intro r h; simp [annScan] at h
  | cons c cs ih =>
    intro r h
    rw [annScan] at h
    cases ht : tokAt toks close (c :: cs) with
    | some r' => rw [ht, Option.some.injEq] at h; exact h ▸ tokAt_sfx ht
    | none =>
      rw [ht] at h
      by_cases hn : c = '\n'
      · rw [if_pos hn] at h; exact absurd h (by simp)
      · rw [if_neg hn] at h
        exact (ih h).trans (sfx_cons c cs)

/-- Specification of `mAnn1`: empty replacement, rest drawn from the input. -/
theorem mAnn1_spec {t r rest : List Char} (h : mAnn1 t = some (r, rest)) :
    r = [] ∧ rest <:+ t := by
  match t with
  | [] => simp [mAnn1] at h
  | [b] => simp [mAnn1] at h
  | b :: c :: cs =>
    rw [mAnn1] at h
    by_cases hb : b = '【'
    · rw [if_pos hb] at h
      by_cases hn : c = '\n'
      · rw [if_pos hn] at h; exact absurd h (by simp)
      · rw [if_neg hn] at h
        cases ha : annScan ann1Toks isClose1 cs with
        | none => rw [ha] at h; exact absurd h (by simp)
        | some r' =>
          rw [ha, Option.map_some', Option.some.injEq, Prod.mk.injEq] at h
          refine ⟨h.1.symm, h.2 ▸ ?_⟩
          exact ((annScan_sfx ha).trans (sfx_cons c cs)).trans (sfx_cons b (c :: cs))
    · rw [if_neg hb] at h; exact absurd h (by simp)

/-- Specification of `mAnn2`: empty replacement, rest drawn from the input. -/
theorem mAnn2_spec {t r rest : List Char} (h : mAnn2 t = some (r, rest)) :
    r = [] ∧ rest <:+ t := by
  match t with
  | [] => simp [mAnn2] at h
  | c :: cs =>
    rw [mAnn2] at h
    by_cases ho : isOpen2 c = true
    · rw [if_pos ho] at h
      cases ha : annScan ann2Toks isClose2 cs with
      | none => rw [ha] at h; exact absurd h (by simp)
      | some r' =>
        rw [ha, Option.map_some', Option.some.injEq, Prod.mk.injEq] at h
        exact ⟨h.1.symm, h.2 ▸ (annScan_sfx ha).trans (sfx_cons c cs)⟩
    · rw [if_neg ho] at h; exact absurd h (by simp)

/-- `parenCoreAt` returns a suffix of its input (after the closing `)`). -/
theorem parenCoreAt_sfx {t d s5 : List Char} (h : parenCoreAt t = some (d, s5)) :
    s5 <:+ t := by
  rw [parenCoreAt] at h
  cases hdw : t.dropWhile isWS with
  | nil => rw [hdw] at h; exact absurd h (by simp)
  | cons a s2 =>
    rw [hdw] at h
    dsimp only at h
    by_cases ha : a = '('
    · rw [if_pos ha] at h
      by_cases hd0 : (s2.dropWhile isWS).takeWhile isDigitCh = []
      · rw [if_pos hd0] at h; exact absurd h (by simp)
      · rw [if_neg hd0] at h
        cases hdw2 : ((s2.dropWhile isWS).dropWhile isDigitCh).dropWhile isWS with
        | nil => rw [hdw2] at h; exact absurd h (by simp)
        | cons b s5' =>
          rw [hdw2] at h
          dsimp only at h
          by_cases hb : b = ')'
          · rw [if_pos hb, Option.some.injEq, Prod.mk.injEq] at h
            have h1 : s5' <:+ (s2.dropWhile isWS).dropWhile isDigitCh :=
              (sfx_cons b s5').trans (hdw2 ▸ sfx_dropWhile isWS _)
            have h2 : s5' <:+ s2 :=
              (h1.trans (sfx_dropWhile isDigitCh _)).trans (sfx_dropWhile isWS s2)
            have h3 : s5' <:+ t :=
              (h2.trans (sfx_cons a s2)).trans (hdw ▸ sfx_dropWhile isWS t)
            exact h.2 ▸ h3
          · rw [if_neg hb] at h; exact absurd h (by simp)
    · rw [if_neg ha] at h; exact absurd h (by simp)

/-- Specification of `mParenSub`. -/
theorem mParenSub_spec {repl t r rest : List Char} (h : mParenSub repl t = some (r, rest)) :
    r = repl ∧ rest <:+ t := by
  rw [mParenSub] at h
  cases hc : parenCoreAt t with
  | none => rw [hc] at h; exact absurd h (by simp)
  | some pr =>
    obtain ⟨d, s5⟩ := pr
    rw [hc] at h
    dsimp only at h
    rw [Option.some.injEq, Prod.mk.injEq] at h
    exact ⟨h.1.symm, h.2 ▸ (sfx_dropWhile isWS s5).trans (parenCoreAt_sfx hc)⟩

/-- Specification of `mParenExt`: additionally the input contains `'.'`. -/
theorem mParenExt_spec {repl t r rest : List Char} (h : mParenExt repl t = some (r, rest)) :
    r = repl ∧ rest <:+ t := by
  rw [mParenExt] at h
  cases hc : parenCoreAt t with
  | none => rw [hc] at h; exact absurd h (by simp)
  | some pr =>
    obtain ⟨d, s5⟩ := pr
    rw [hc] at h
    dsimp only at h
    by_cases he : hasExtAt (s5.dropWhile isWS) = true
    · rw [if_pos he, Option.some.injEq, Prod.mk.injEq] at h
      exact ⟨h.1.symm, h.2 ▸ (sfx_dropWhile isWS s5).trans (parenCoreAt_sfx hc)⟩
    · rw [if_neg he] at h; exact absurd h (by simp)

/-- Specification of `mKanji`. -/
theorem mKanji_spec {repl t r rest : List Char} (h : mKanji repl t = some (r, rest)) :
    r = repl ∧ rest <:+ t := by
  rw [mKanji] at h
  cases hdw : t.dropWhile isWS with
  | nil => rw [hdw] at h; exact absurd h (by simp)
  | cons c s2 =>
    rw [hdw] at h
    dsimp only at h
    by_cases hk : kanjiClass.contains c = true
    · rw [if_pos hk] at h
      have hs2 : s2 <:+ t := (sfx_cons c s2).trans (hdw ▸ sfx_dropWhile isWS t)
      cases hdw2 : s2.dropWhile isWS with
      | nil =>
        rw [hdw2] at h
        dsimp only at h
        rw [Option.some.injEq, Prod.mk.injEq] at h
        exact ⟨h.1.symm, h.2 ▸ ⟨t, by simp⟩⟩
      | cons b s3 =>
        rw [hdw2] at h
        dsimp only at h
        have hb3 : b :: s3 <:+ t := (hdw2 ▸ sfx_dropWhile isWS s2).trans hs2
        by_cases hb : b = '巻'
        · rw [if_pos hb, Option.some.injEq, Prod.mk.injEq] at h
          refine ⟨h.1.symm, h.2 ▸ ?_⟩
          exact ((sfx_dropWhile isWS s3).trans (sfx_cons b s3)).trans hb3
        · rw [if_neg hb, Option.some.injEq, Prod.mk.injEq] at h
          exact ⟨h.1.symm, h.2 ▸ hb3⟩
    · rw [if_neg hk] at h; exact absurd h (by simp)

/-- Specification of `mCircled`. -/
theorem mCircled_spec {lo hi : Char} {repl t r rest : List Char}
    (h : mCircled lo hi repl t = some (r, rest)) : r = repl ∧ rest <:+ t := by
  rw [mCircled] at h
  cases hdw : t.dropWhile isWS with
  | nil => rw [hdw] at h; exact absurd h (by simp)
  | cons c s2 =>
    rw [hdw] at h
    dsimp only at h
    by_cases hk : inRange lo hi c = true
    · rw [if_pos hk] at h
      have hs2 : s2 <:+ t := (sfx_cons c s2).trans (hdw ▸ sfx_dropWhile isWS t)
      cases hdw2 : s2.dropWhile isWS with
      | nil =>
        rw [hdw2] at h
        dsimp only at h
        rw [Option.some.injEq, Prod.mk.injEq] at h
        exact ⟨h.1.symm, h.2 ▸ ⟨t, by simp⟩⟩
      | cons b s3 =>
        rw [hdw2] at h
        dsimp only at h
        have hb3 : b :: s3 <:+ t := (hdw2 ▸ sfx_dropWhile isWS s2).trans hs2
        by_cases hb : b = '巻'
        · rw [if_pos hb, Option.some.injEq, Prod.mk.injEq] at h
          refine ⟨h.1.symm, h.2 ▸ ?_⟩
          exact ((sfx_dropWhile isWS s3).trans (sfx_cons b s3)).trans hb3
        · rw [if_neg hb, Option.some.injEq, Prod.mk.injEq] at h
          exact ⟨h.1.symm, h.2 ▸ hb3⟩
    · rw [if_neg hk] at h; exact absurd h (by simp)

/-- Specification of `mBare`: additionally the input contains `'.'` whenever
it matches (via the `.epub` lookahead). -/
theorem mBare_spec {repl t r rest : List Char} (h : mBare repl t = some (r, rest)) :
    r = repl ∧ rest <:+ t ∧ '.' ∈ t := by
  rw [mBare] at h
  dsimp only at h
  by_cases hd0 : (t.dropWhile isWS).takeWhile isDigitCh = []
  · rw [if_pos hd0] at h; exact absurd h (by simp)
  · rw [if_neg hd0] at h
    have hs1 : t.dropWhile isWS <:+ t := sfx_dropWhile isWS t
    cases hdw : (t.dropWhile isWS).dropWhile isDigitCh with
    | nil =>
      rw [hdw] at h
      dsimp only at h
      by_cases he : hasExtAt ([] : List Char) = true
      · rw [if_pos he] at h
        exact absurd he (by decide)
      · rw [if_neg he] at h; exact absurd h (by simp)
    | cons b s3 =>
      rw [hdw] at h
      dsimp only at h
      have hb3 : b :: s3 <:+ t := (hdw ▸ sfx_dropWhile isDigitCh _).trans hs1
      by_cases hb : b = '巻'
      · rw [if_pos hb] at h
        by_cases he : hasExtAt (s3.dropWhile isWS) = true
        · rw [if_pos he, Option.some.injEq, Prod.mk.injEq] at h
          have hsf : s3.dropWhile isWS <:+ t :=
            ((sfx_dropWhile isWS s3).trans (sfx_cons b s3)).trans hb3
          exact ⟨h.1.symm, h.2 ▸ hsf, sfx_mem hsf (hasExtAt_mem he)⟩
        · rw [if_neg he] at h; exact absurd h (by simp)
      · rw [if_neg hb] at h
        by_cases he : hasExtAt ((b :: s3).dropWhile isWS) = true
        · rw [if_pos he, Option.some.injEq, Prod.mk.injEq] at h
          have hsf : (b :: s3).dropWhile isWS <:+ t :=
            (sfx_dropWhile isWS (b :: s3)).trans hb3
          exact ⟨h.1.symm, h.2 ▸ hsf, sfx_mem hsf (hasExtAt_mem he)⟩
        · rw [if_neg he] at h; exact absurd h (by simp)

/-!
## Search lemmas and stage identities
-/

/-- `parenBAt` can only succeed on a string containing `'.'`. -/
theorem parenBAt_dot {t d : List Char} (h : parenBAt t = some d) : '.' ∈ t := by
  rw [parenBAt] at h
  cases hc : parenCoreAt t with
  | none => rw [hc] at h; exact absurd h (by simp)
  | some pr =>
    obtain ⟨d', s5⟩ := pr
    rw [hc] at h
    dsimp only at h
    by_cases he : hasExtAt (s5.dropWhile isWS) = true
    · exact sfx_mem ((sfx_dropWhile isWS s5).trans (parenCoreAt_sfx hc)) (hasExtAt_mem he)
    · rw [if_neg he] at h; exact absurd h (by simp)

/-- A search whose anchored attempt fails on every suffix returns `none`. -/
theorem scanFind_none {f : List Char → Option (List Char)} :
    ∀ {s : List Char}, (∀ t, t <:+ s → f t = none) → scanFind f s = none := by
  intro s
  induction s with
  | nil => intro _; rfl
  | cons c cs ih =>
    intro hall
    rw [scanFind, hall (c :: cs) ⟨[], rfl⟩]
    exact ih (fun t ht => hall t (ht.trans (sfx_cons c cs)))

/-- On a dot-free string the extension-anchored parenthesized search fails. -/
theorem findParenB_none {s : List Char} (hnd : '.' ∉ s) : findParenB s = none := by
  apply scanFind_none
  intro t ht
  cases hb : parenBAt t with
  | some d => exact absurd (sfx_mem ht (parenBAt_dot hb)) hnd
  | none => rfl

/-- `bareAt` can only succeed on a string containing `'.'`. -/
theorem bareAt_dot {t d : List Char} (h : bareAt t = some d) : '.' ∈ t := by
  cases t with
  | nil => simp [bareAt] at h
  | cons c cs =>
    rw [bareAt] at h
    by_cases hd : isDigitCh c = true
    · rw [if_pos hd] at h
      dsimp only at h
      cases hdw : (c :: cs).dropWhile isDigitCh with
      | nil =>
        rw [hdw] at h
        dsimp only at h
        by_cases he : hasExtAt ([] : List Char) = true
        · exact absurd he (by decide)
        · rw [if_neg he] at h; exact absurd h (by simp)
      | cons b r =>
        rw [hdw] at h
        dsimp only at h
        have hb3 : b :: r <:+ c :: cs := hdw ▸ sfx_dropWhile isDigitCh (c :: cs)
        by_cases hb : b = '巻'
        · rw [if_pos hb] at h
          by_cases he : hasExtAt (r.dropWhile isWS) = true
          · have hsf : r.dropWhile isWS <:+ c :: cs :=
              ((sfx_dropWhile isWS r).trans (sfx_cons b r)).trans hb3
            exact sfx_mem hsf (hasExtAt_mem he)
          · rw [if_neg he] at h; exact absurd h (by simp)
        · rw [if_neg hb] at h
          by_cases he : hasExtAt ((b :: r).dropWhile isWS) = true
          · have hsf : (b :: r).dropWhile isWS <:+ c :: cs :=
              (sfx_dropWhile isWS (b :: r)).trans hb3
            exact sfx_mem hsf (hasExtAt_mem he)
          · rw [if_neg he] at h; exact absurd h (by simp)
    · rw [if_neg hd] at h; exact absurd h (by simp)

/-- On a dot-free string the bare-digit search fails. -/
theorem findBare_none {s : List Char} (hnd : '.' ∉ s) : findBare s = none := by
  apply scanFind_none
  intro t ht
  cases hb : bareAt t with
  | some d => exact absurd (sfx_mem ht (bareAt_dot hb)) hnd
  | none => rfl

/-- A matcher that fails on every suffix satisfies `scanNoneB`. -/
theorem scanNone_of_forall {m : List Char → Option (List Char × List Char)} :
    ∀ {s : List Char}, (∀ t, t <:+ s → m t = none) → scanNoneB m s = true := by
  intro s
  induction s with
  | nil => intro _; rfl
  | cons c cs ih =>
    intro hall
    rw [scanNoneB, Bool.and_eq_true]
    refine ⟨?_, ih (fun t ht => hall t (ht.trans (sfx_cons c cs)))⟩
    rw [hall (c :: cs) ⟨[], rfl⟩]
    rfl

/-- On a dot-free string the strip-before-extension substitution is the
identity. -/
theorem stripSpacesBeforeExt_of_noDot {s : List Char} (hnd : '.' ∉ s) :
    stripSpacesBeforeExt s = s := by
  apply subScan_self_of_scanNone
  apply scanNone_of_forall
  intro t ht
  cases hm : mStripExt t with
  | none => rfl
  | some pr =>
    obtain ⟨r, rest⟩ := pr
    exact absurd (sfx_mem ht (mStripExt_spec hm).2.2) hnd

/-- The first parenthesized rule is skipped when its search fails. -/
theorem padParenSpaceRule_of_none {s : List Char} (h : findParenA s = none) :
    padParenSpaceRule s = s := by
  rw [padParenSpaceRule, h]

/-- The second parenthesized rule is skipped when its search fails. -/
theorem padParenExtRule_of_none {s : List Char} (h : findParenB s = none) :
    padParenExtRule s = s := by
  rw [padParenExtRule, h]

/-- The kanji rule is skipped when the class search fails. -/
theorem pad_kanji_number_of_none {s : List Char}
    (h : s.find? (fun c => kanjiClass.contains c) = none) : pad_kanji_number s = s := by
  rw [pad_kanji_number, h]

/-- A circled-digit block is skipped when its range search fails. -/
theorem padCircledRule_of_none {lo hi : Char} {off : Nat} {s : List Char}
    (h : s.find? (inRange lo hi) = none) : padCircledRule lo hi off s = s := by
  rw [padCircledRule, h]

/-- The bare-digit rule is skipped when its search fails. -/
theorem padBareRule_of_none {s : List Char} (h : findBare s = none) :
    padBareRule s = s := by
  rw [padBareRule, h]

/-!
## Pointwise character lemmas
-/



/-- Properties of an ASCII decimal digit character. -/
theorem asciiDigit_props (n : Nat) (h1 : 48 ≤ n) (h2 : n ≤ 57) :
    safeOutChar (Char.ofNat n) = true ∧ Char.ofNat n ≠ '.' ∧ Char.ofNat n ≠ '|' := by
  interval_cases n <;> decide

/-- Case analysis for the fullwidth-alphanumeric rewrite: either the
character is left unchanged (and was not fullwidth alphanumeric), or the
result is a plain ASCII letter or digit. -/
theorem toHalfwidth_props (c : Char) :
    (toHalfwidth c = c ∧ isFwAlnum c = false) ∨
    (isFwAlnum (toHalfwidth c) = false ∧ isUnsafe (toHalfwidth c) = false ∧
      isFwParen (toHalfwidth c) = false ∧ toHalfwidth c ≠ '.' ∧ toHalfwidth c ≠ '|') := by
  by_cases h : isFwAlnum c = true
  · right
    have ht : toHalfwidth c = Char.ofNat (c.toNat - 0xFEE0) := by
      rw [toHalfwidth, if_pos h]
    rw [ht]
    simp only [isFwAlnum, Bool.or_eq_true, Bool.and_eq_true, decide_eq_true_eq] at h
    rcases h with (⟨h1, h2⟩ | ⟨h1, h2⟩) | ⟨h1, h2⟩
    · obtain ⟨m, hm⟩ : ∃ m, c.toNat - 0xFEE0 = m := ⟨_, rfl⟩
      have hb1 : 0x41 ≤ m := by omega
      have hb2 : m ≤ 0x5A := by omega
      rw [hm]
      interval_cases m <;> decide
    · obtain ⟨m, hm⟩ : ∃ m, c.toNat - 0xFEE0 = m := ⟨_, rfl⟩
      have hb1 : 0x61 ≤ m := by omega
      have hb2 : m ≤ 0x7A := by omega
      rw [hm]
      interval_cases m <;> decide
    · obtain ⟨m, hm⟩ : ∃ m, c.toNat - 0xFEE0 = m := ⟨_, rfl⟩
      have hb1 : 0x30 ≤ m := by omega
      have hb2 : m ≤ 0x39 := by omega
      rw [hm]
      interval_cases m <;> decide
  · left
    refine ⟨by rw [toHalfwidth, if_neg h], ?_⟩
    cases hbb : isFwAlnum c with
    | false => rfl
    | true => exact absurd hbb h

/-- Case analysis for the unsafe-symbol rewrite: either the character is left
unchanged (and was not unsafe), or the result is one of the ten fullwidth
substitutes (which are themselves safe). -/
theorem toSafe_props (c : Char) :
    (toSafe c = c ∧ isUnsafe c = false) ∨
    (isUnsafe (toSafe c) = false ∧ isFwAlnum (toSafe c) = false ∧
      isFwParen (toSafe c) = false ∧ toSafe c ≠ '.' ∧ toSafe c ≠ '|') := by
  by_cases h : isUnsafe c = true
  · right
    have hc : c ∈ unsafeChars := by
      rw [isUnsafe, List.contains] at h
      exact List.elem_iff.mp h
    have key : ∀ x ∈ unsafeChars, isUnsafe (toSafe x) = false ∧ isFwAlnum (toSafe x) = false ∧
        isFwParen (toSafe x) = false ∧ toSafe x ≠ '.' ∧ toSafe x ≠ '|' := by decide
    exact key c hc
  · left
    refine ⟨by rw [toSafe, if_neg h], ?_⟩
    cases hbb : isUnsafe c with
    | false => rfl
    | true => exact absurd hbb h

/-- Case analysis for the fullwidth-round-bracket rewrite. -/
theorem toHalfParen_props (c : Char) :
    (toHalfParen c = c ∧ isFwParen c = false) ∨
    (isUnsafe (toHalfParen c) = false ∧ isFwAlnum (toHalfParen c) = false ∧
      isFwParen (toHalfParen c) = false ∧ toHalfParen c ≠ '.' ∧ toHalfParen c ≠ '|') := by
  by_cases h : isFwParen c = true
  · right
    have hc : c = '（' ∨ c = '）' := by
      simpa [isFwParen, Bool.or_eq_true, beq_iff_eq] using h
    rcases hc with rfl | rfl <;> decide
  · left
    refine ⟨by rw [toHalfParen, if_neg h], ?_⟩
    cases hbb : isFwParen c with
    | false => rfl
    | true => exact absurd hbb h

/-- The colon rewrite maps every character to a space or leaves it alone. -/
theorem colonToSpace_props (c : Char) : colonToSpace c = ' ' ∨ colonToSpace c = c := by
  by_cases h : isColon c = true
  · left; rw [colonToSpace, if_pos h]
  · right; rw [colonToSpace, if_neg h]

/-- Characters printed by the fueled decimal printer are ASCII digits (or
come from the accumulator). -/
theorem decAux_mem {P : Char → Prop} (hd : ∀ r : Nat, r < 10 → P (Char.ofNat (48 + r))) :
    ∀ (fuel n : Nat) (acc : List Char), (∀ c ∈ acc, P c) → ∀ c ∈ decAux fuel n acc, P c := by
  intro fuel
  induction fuel with
  | zero => intro n acc hacc c hc; exact hacc c hc
  | succ f ih =>
    intro n acc hacc c hc
    rw [decAux] at hc
    by_cases hz : n / 10 = 0
    · rw [if_pos hz] at hc
      rcases List.mem_cons.mp hc with h | h
      · exact h ▸ hd (n % 10) (Nat.mod_lt n (by norm_num))
      · exact hacc c h
    · rw [if_neg hz] at hc
      refine ih (n / 10) _ ?_ c hc
      intro x hx
      rcases List.mem_cons.mp hx with h | h
      · exact h ▸ hd (n % 10) (Nat.mod_lt n (by norm_num))
      · exact hacc x h

/-- Characters of `padNum` are ASCII digits. -/
theorem padNum_mem {P : Char → Prop} (hd : ∀ r : Nat, r < 10 → P (Char.ofNat (48 + r)))
    (n : Nat) : ∀ c ∈ padNum n, P c := by
  intro c hc
  rw [padNum, zfill2] at hc
  rcases List.mem_append.mp hc with h | h
  · have h0 : c = '0' := List.eq_of_mem_replicate h
    have h48 : Char.ofNat (48 + 0) = '0' := by decide
    exact h0 ▸ (h48 ▸ hd 0 (by norm_num))
  · rw [natToDecimal] at h
    exact decAux_mem hd (n + 1) n [] (by simp) c h

/-- A successful association-list lookup yields a member pair. -/
theorem lookup_mem_ch : ∀ (l : List (Char × List Char)) (a : Char) (b : List Char),
    List.lookup a l = some b → (a, b) ∈ l := by
  intro l
  induction l with
  | nil => intro a b h; simp [List.lookup] at h
  | cons p ps ih =>
    intro a b h
    obtain ⟨k, v⟩ := p
    rw [List.lookup] at h
    cases hk : a == k with
    | true =>
      rw [hk] at h
      dsimp only at h
      rw [Option.some.injEq] at h
      have hka : a = k := beq_iff_eq.mp hk
      rw [hka, ← h]
      exact List.mem_cons_self _ _
    | false =>
      rw [hk] at h
      dsimp only at h
      exact List.mem_cons_of_mem _ (ih a b h)



/-- Every character of a kanji-rule replacement is in the pool. -/
theorem kanjiRepl_pool : ∀ (x : Char), ∀ c ∈ kanjiRepl x, c ∈ kanjiPool := by
  intro x c hc
  rw [kanjiRepl] at hc
  cases hk : kanjiDict x with
  | none =>
    rw [hk] at hc
    simp only [Option.getD_none] at hc
    exact (by decide : ∀ y ∈ (' ' :: ['N', 'o', 'n', 'e'] ++ [' ']), y ∈ kanjiPool) c hc
  | some v =>
    rw [hk] at hc
    simp only [Option.getD_some] at hc
    rw [kanjiDict] at hk
    have hv : (x, v) ∈ kanjiPairs := lookup_mem_ch _ _ _ hk
    have hval : ∀ p ∈ kanjiPairs, ∀ c ∈ p.2, c ∈ kanjiPool := by decide
    rcases List.mem_cons.mp hc with rfl | hc2
    · decide
    · rcases List.mem_append.mp hc2 with h | h
      · exact hval (x, v) hv c h
      · have hsp : c = ' ' := by simpa using h
        rw [hsp]; decide

/-!
## Stage-level predicate preservation
-/

/-- `stripPromoSpans` only deletes, so it preserves any character predicate. -/
theorem stripPromoSpans_all {P : Char → Prop} {s : List Char} (hs : ∀ c ∈ s, P c) :
    ∀ c ∈ stripPromoSpans s, P c := by
  refine subScan_all ?_ s.length s hs
  intro t r rest h
  obtain ⟨hr, hsfx⟩ := mAnn1_spec h
  exact ⟨fun c hc => absurd (hr ▸ hc) (List.not_mem_nil c), fun c hc => sfx_mem hsfx hc⟩

/-- `stripPublisherSpans` only deletes, so it preserves any character predicate. -/
theorem stripPublisherSpans_all {P : Char → Prop} {s : List Char} (hs : ∀ c ∈ s, P c) :
    ∀ c ∈ stripPublisherSpans s, P c := by
  refine subScan_all ?_ s.length s hs
  intro t r rest h
  obtain ⟨hr, hsfx⟩ := mAnn2_spec h
  exact ⟨fun c hc => absurd (hr ▸ hc) (List.not_mem_nil c), fun c hc => sfx_mem hsfx hc⟩

/-- `collapseSpaces` inserts only spaces. -/
theorem collapseSpaces_all {P : Char → Prop} (hsp : P ' ') {s : List Char}
    (hs : ∀ c ∈ s, P c) : ∀ c ∈ collapseSpaces s, P c := by
  refine subScan_all ?_ s.length s hs
  intro t r rest h
  obtain ⟨hr, hsfx⟩ := mCollapse_spec h
  refine ⟨fun c hc => ?_, fun c hc => sfx_mem hsfx hc⟩
  rw [hr] at hc
  simpa using (List.mem_singleton.mp hc) ▸ hsp

/-- `stripSpacesBeforeExt` only deletes. -/
theorem stripSpacesBeforeExt_all {P : Char → Prop} {s : List Char}
    (hs : ∀ c ∈ s, P c) : ∀ c ∈ stripSpacesBeforeExt s, P c := by
  refine subScan_all ?_ s.length s hs
  intro t r rest h
  obtain ⟨hr, hsfx, -⟩ := mStripExt_spec h
  exact ⟨fun c hc => absurd (hr ▸ hc) (List.not_mem_nil c), fun c hc => sfx_mem hsfx hc⟩

/-- The colon-rewrite stage preserves predicates that hold for the space. -/
theorem mapColon_all {P : Char → Prop} (hsp : P ' ') {s : List Char}
    (hs : ∀ c ∈ s, P c) : ∀ c ∈ s.map colonToSpace, P c := by
  intro c hc
  rcases List.mem_map.mp hc with ⟨a, ha, rfl⟩
  rcases colonToSpace_props a with he | he <;> rw [he]
  · exact hsp
  · exact hs a ha

/-- The first parenthesized rule inserts only spaces and ASCII digits. -/
theorem padParenSpaceRule_all {P : Char → Prop} (hsp : P ' ')
    (hd : ∀ r : Nat, r < 10 → P (Char.ofNat (48 + r))) {s : List Char}
    (hs : ∀ c ∈ s, P c) : ∀ c ∈ padParenSpaceRule s, P c := by
  rw [padParenSpaceRule]
  cases hf : findParenA s with
  | none => exact hs
  | some g =>
    refine subScan_all ?_ s.length s hs
    intro t r rest h
    obtain ⟨hr, hsfx⟩ := mParenSub_spec h
    refine ⟨fun c hc => ?_, fun c hc => sfx_mem hsfx hc⟩
    rw [hr] at hc
    rcases List.mem_cons.mp hc with rfl | hc2
    · exact hsp
    · rcases List.mem_append.mp hc2 with h2 | h2
      · exact padNum_mem hd _ c h2
      · exact (List.mem_singleton.mp h2) ▸ hsp

/-- The second parenthesized rule inserts only a space and ASCII digits. -/
theorem padParenExtRule_all {P : Char → Prop} (hsp : P ' ')
    (hd : ∀ r : Nat, r < 10 → P (Char.ofNat (48 + r))) {s : List Char}
    (hs : ∀ c ∈ s, P c) : ∀ c ∈ padParenExtRule s, P c := by
  rw [padParenExtRule]
  cases hf : findParenB s with
  | none => exact hs
  | some g =>
    refine subScan_all ?_ s.length s hs
    intro t r rest h
    obtain ⟨hr, hsfx⟩ := mParenExt_spec h
    refine ⟨fun c hc => ?_, fun c hc => sfx_mem hsfx hc⟩
    rw [hr] at hc
    rcases List.mem_cons.mp hc with rfl | hc2
    · exact hsp
    · exact padNum_mem hd _ c hc2

/-- The kanji rule inserts only characters from `kanjiPool`. -/
theorem pad_kanji_number_all {P : Char → Prop} (hpool : ∀ c ∈ kanjiPool, P c)
    {s : List Char} (hs : ∀ c ∈ s, P c) : ∀ c ∈ pad_kanji_number s, P c := by
  rw [pad_kanji_number]
  cases hf : s.find? (fun c => kanjiClass.contains c) with
  | none => exact hs
  | some c0 =>
    refine subScan_all ?_ s.length s hs
    intro t r rest h
    obtain ⟨hr, hsfx⟩ := mKanji_spec h
    exact ⟨fun c hc => hpool c (kanjiRepl_pool c0 c (hr ▸ hc)),
      fun c hc => sfx_mem hsfx hc⟩

/-- A circled-digit block inserts only a zero, a digit derived from the found
character, and spaces. -/
theorem padCircledRule_all {P : Char → Prop} {lo hi : Char} {off : Nat}
    (hrep : ∀ c0 : Char, inRange lo hi c0 = true →
      ∀ c ∈ (' ' :: zfill2 [Char.ofNat (c0.toNat - off)] ++ [' ']), P c)
    {s : List Char} (hs : ∀ c ∈ s, P c) : ∀ c ∈ padCircledRule lo hi off s, P c := by
  rw [padCircledRule]
  cases hf : s.find? (inRange lo hi) with
  | none => exact hs
  | some c0 =>
    have hc0 : inRange lo hi c0 = true := List.find?_some hf
    refine subScan_all ?_ s.length s hs
    intro t r rest h
    obtain ⟨hr, hsfx⟩ := mCircled_spec h
    exact ⟨fun c hc => hrep c0 hc0 c (hr ▸ hc), fun c hc => sfx_mem hsfx hc⟩

/-- The bare-digit rule inserts only a space and ASCII digits. -/
theorem padBareRule_all {P : Char → Prop} (hsp : P ' ')
    (hd : ∀ r : Nat, r < 10 → P (Char.ofNat (48 + r))) {s : List Char}
    (hs : ∀ c ∈ s, P c) : ∀ c ∈ padBareRule s, P c := by
  rw [padBareRule]
  cases hf : findBare s with
  | none => exact hs
  | some g =>
    refine subScan_all ?_ s.length s hs
    intro t r rest h
    obtain ⟨hr, hsfx, -⟩ := mBare_spec h
    refine ⟨fun c hc => ?_, fun c hc => sfx_mem hsfx hc⟩
    rw [hr] at hc
    rcases List.mem_cons.mp hc with rfl | hc2
    · exact hsp
    · exact padNum_mem hd _ c hc2

/-- Discharges the replacement obligation of a circled-digit block for any
predicate holding on spaces and ASCII digits, given that the block's offset
maps its codepoint range into ASCII digits. -/
theorem circled_hrep {P : Char → Prop} (hsp : P ' ')
    (hd : ∀ r : Nat, r < 10 → P (Char.ofNat (48 + r))) {lo hi : Char} {off : Nat}
    (hoff : ∀ n : Nat, lo.toNat ≤ n → n ≤ hi.toNat → 48 ≤ n - off ∧ n - off ≤ 57) :
    ∀ c0 : Char, inRange lo hi c0 = true →
      ∀ c ∈ (' ' :: zfill2 [Char.ofNat (c0.toNat - off)] ++ [' ']), P c := by
  intro c0 h0 c hc
  have hd' : ∀ m : Nat, 48 ≤ m → m ≤ 57 → P (Char.ofNat m) := by
    intro m h1 h2
    have he : 48 + (m - 48) = m := by omega
    rw [← he]
    exact hd (m - 48) (by omega)
  simp only [inRange, Bool.and_eq_true, decide_eq_true_eq] at h0
  obtain ⟨hb1, hb2⟩ := hoff c0.toNat h0.1 h0.2
  have hz : zfill2 [Char.ofNat (c0.toNat - off)] = ['0', Char.ofNat (c0.toNat - off)] := rfl
  rw [hz] at hc
  rcases List.mem_cons.mp hc with rfl | hc2
  · exact hsp
  · rcases List.mem_append.mp hc2 with h2 | h2
    · rcases List.mem_cons.mp h2 with rfl | h3
      · exact hd' 48 (by norm_num) (by norm_num)
      · rcases List.mem_singleton.mp h3 with rfl
        exact hd' _ hb1 hb2
    · rcases List.mem_singleton.mp h2 with rfl
      exact hsp

/-- Offset facts for the four circled-digit blocks. -/
theorem circOff1 : ∀ n : Nat, ('①' : Char).toNat ≤ n → n ≤ ('⑨' : Char).toNat →
    48 ≤ n - 0x242F ∧ n - 0x242F ≤ 57 := by
  intro n h1 h2
  have e1 : ('①' : Char).toNat = 9312 := rfl
  have e2 : ('⑨' : Char).toNat = 9320 := rfl
  omega

/-- Offset fact for the `⑴-⑼` block. -/
theorem circOff2 : ∀ n : Nat, ('⑴' : Char).toNat ≤ n → n ≤ ('⑼' : Char).toNat →
    48 ≤ n - 0x2443 ∧ n - 0x2443 ≤ 57 := by
  intro n h1 h2
  have e1 : ('⑴' : Char).toNat = 9332 := rfl
  have e2 : ('⑼' : Char).toNat = 9340 := rfl
  omega

/-- Offset fact for the `⒈-⒐` block. -/
theorem circOff3 : ∀ n : Nat, ('⒈' : Char).toNat ≤ n → n ≤ ('⒐' : Char).toNat →
    48 ≤ n - 0x2457 ∧ n - 0x2457 ≤ 57 := by
  intro n h1 h2
  have e1 : ('⒈' : Char).toNat = 9352 := rfl
  have e2 : ('⒐' : Char).toNat = 9360 := rfl
  omega

/-- Offset fact for the `⓵-⓽` block. -/
theorem circOff4 : ∀ n : Nat, ('⓵' : Char).toNat ≤ n → n ≤ ('⓽' : Char).toNat →
    48 ≤ n - 0x24C4 ∧ n - 0x24C4 ≤ 57 := by
  intro n h1 h2
  have e1 : ('⓵' : Char).toNat = 9461 := rfl
  have e2 : ('⓽' : Char).toNat = 9469 := rfl
  omega

/-- After the three character rewrites every character is safe: no unsafe
symbol, no fullwidth alphanumeric, no fullwidth round bracket. -/
theorem titleCharRewrites_safe (s : List Char) :
    ∀ c ∈ titleCharRewrites s, safeOutChar c = true := by
  intro c hc
  rw [titleCharRewrites] at hc
  rcases List.mem_map.mp hc with ⟨b, hb, rfl⟩
  rcases List.mem_map.mp hb with ⟨a, ha, rfl⟩
  rcases List.mem_map.mp ha with ⟨x, hx, rfl⟩
  have h1 : isFwAlnum (toHalfwidth x) = false := by
    rcases toHalfwidth_props x with ⟨he, hf⟩ | ⟨hf, -⟩
    · rw [he]; exact hf
    · exact hf
  have h2 : isFwAlnum (toSafe (toHalfwidth x)) = false ∧
      isUnsafe (toSafe (toHalfwidth x)) = false := by
    rcases toSafe_props (toHalfwidth x) with ⟨he, hu⟩ | ⟨hu, hf, -⟩
    · rw [he]; exact ⟨h1, hu⟩
    · exact ⟨hf, hu⟩
  rcases toHalfParen_props (toSafe (toHalfwidth x)) with ⟨he, hp⟩ | ⟨hu, hf, hp, -⟩
  · rw [safeOutChar, he, h2.1, h2.2, hp]; rfl
  · rw [safeOutChar, hu, hf, hp]; rfl

/-- Every character of the normalized title is safe. -/
theorem formatTitleList_safe (s : List Char) :
    ∀ c ∈ formatTitleList s, safeOutChar c = true := by
  have hsp : safeOutChar ' ' = true := by decide
  have hd : ∀ r : Nat, r < 10 → safeOutChar (Char.ofNat (48 + r)) = true :=
    fun r hr => (asciiDigit_props (48 + r) (by omega) (by omega)).1
  have hpool : ∀ c ∈ kanjiPool, safeOutChar c = true := by decide
  rw [formatTitleList, titleThroughParenRules,
    pad_numeric_only_string_enclosed_in_round_brackets, titleStages1to6, padCircledBlocks]
  exact stripSpacesBeforeExt_all (collapseSpaces_all hsp (padBareRule_all hsp hd
    (padCircledRule_all (circled_hrep hsp hd circOff4)
      (padCircledRule_all (circled_hrep hsp hd circOff3)
        (padCircledRule_all (circled_hrep hsp hd circOff2)
          (padCircledRule_all (circled_hrep hsp hd circOff1)
            (pad_kanji_number_all hpool
              (padParenExtRule_all hsp hd
                (padParenSpaceRule_all hsp hd
                  (collapseSpaces_all hsp
                    (mapColon_all hsp
                      (stripPublisherSpans_all
                        (stripPromoSpans_all (titleCharRewrites_safe s))))))))))))))

/-- After the unsafe-symbol rewrite no `'|'` remains, and the later stages up
to the parenthesized rules never introduce one: the string on which
`pad_kanji_number` is invoked inside `format_book_title` is `'|'`-free. -/
theorem titleThroughParenRules_noBar (s : List Char) :
    ∀ c ∈ titleThroughParenRules s, c ≠ '|' := by
  have hsp : (' ' : Char) ≠ '|' := by decide
  have hd : ∀ r : Nat, r < 10 → Char.ofNat (48 + r) ≠ '|' :=
    fun r hr => (asciiDigit_props (48 + r) (by omega) (by omega)).2.2
  have hbase : ∀ c ∈ titleCharRewrites s, c ≠ '|' := by
    intro c hc
    rw [titleCharRewrites] at hc
    rcases List.mem_map.mp hc with ⟨b, hb, rfl⟩
    rcases List.mem_map.mp hb with ⟨a, ha, rfl⟩
    have h2 : toSafe a ≠ '|' := by
      rcases toSafe_props a with ⟨he, hu⟩ | ⟨-, -, -, -, hb2⟩
      · rw [he]
        intro hx
        rw [hx] at hu
        exact absurd hu (by decide)
      · exact hb2
    rcases toHalfParen_props (toSafe a) with ⟨he, -⟩ | ⟨-, -, -, -, hb2⟩
    · rw [he]; exact h2
    · exact hb2
  rw [titleThroughParenRules, pad_numeric_only_string_enclosed_in_round_brackets,
    titleStages1to6]
  exact padParenExtRule_all hsp hd (padParenSpaceRule_all hsp hd
    (collapseSpaces_all hsp (mapColon_all hsp
      (stripPublisherSpans_all (stripPromoSpans_all hbase)))))

/-- On a dot-free input the stages through the first parenthesized rule
never introduce a `'.'`. -/
theorem parenSpace_noDot (s : List Char) (hnd : '.' ∉ s) :
    ∀ c ∈ padParenSpaceRule (titleStages1to6 s), c ≠ '.' := by
  have hsp : (' ' : Char) ≠ '.' := by decide
  have hd : ∀ r : Nat, r < 10 → Char.ofNat (48 + r) ≠ '.' :=
    fun r hr => (asciiDigit_props (48 + r) (by omega) (by omega)).2.1
  have hbase : ∀ c ∈ titleCharRewrites s, c ≠ '.' := by
    intro c hc
    rw [titleCharRewrites] at hc
    rcases List.mem_map.mp hc with ⟨b, hb, rfl⟩
    rcases List.mem_map.mp hb with ⟨a, ha, rfl⟩
    rcases List.mem_map.mp ha with ⟨x, hx, rfl⟩
    have h0 : x ≠ '.' := fun he => hnd (he ▸ hx)
    have h1 : toHalfwidth x ≠ '.' := by
      rcases toHalfwidth_props x with ⟨he, -⟩ | ⟨-, -, -, hb2, -⟩
      · rw [he]; exact h0
      · exact hb2
    have h2 : toSafe (toHalfwidth x) ≠ '.' := by
      rcases toSafe_props (toHalfwidth x) with ⟨he, -⟩ | ⟨-, -, -, hb2, -⟩
      · rw [he]; exact h1
      · exact hb2
    rcases toHalfParen_props (toSafe (toHalfwidth x)) with ⟨he, -⟩ | ⟨-, -, -, hb2, -⟩
    · rw [he]; exact h2
    · exact hb2
  rw [titleStages1to6]
  exact padParenSpaceRule_all hsp hd
    (collapseSpaces_all hsp (mapColon_all hsp
      (stripPublisherSpans_all (stripPromoSpans_all hbase))))

/-- On a dot-free input no stage up to the circled-digit blocks introduces a
`'.'`. -/
theorem titleDotFree (s : List Char) (hnd : '.' ∉ s) :
    ∀ c ∈ padCircledBlocks (pad_kanji_number
      (padParenSpaceRule (titleStages1to6 s))), c ≠ '.' := by
  have hsp : (' ' : Char) ≠ '.' := by decide
  have hd : ∀ r : Nat, r < 10 → Char.ofNat (48 + r) ≠ '.' :=
    fun r hr => (asciiDigit_props (48 + r) (by omega) (by omega)).2.1
  have hpool : ∀ c ∈ kanjiPool, c ≠ '.' := by decide
  rw [padCircledBlocks]
  exact padCircledRule_all (circled_hrep hsp hd circOff4)
    (padCircledRule_all (circled_hrep hsp hd circOff3)
      (padCircledRule_all (circled_hrep hsp hd circOff2)
        (padCircledRule_all (circled_hrep hsp hd circOff1)
          (pad_kanji_number_all hpool (parenSpace_noDot s hnd)))))

/-- On a dot-free input the full title pipeline coincides with the pipeline
without the extension-anchored rules. -/
theorem formatTitle_noExt (s : List Char) (hnd : '.' ∉ s) :
    formatTitleList s = collapseSpaces (padCircledBlocks (pad_kanji_number
      (padParenSpaceRule (titleStages1to6 s)))) := by
  have hx1 : '.' ∉ padParenSpaceRule (titleStages1to6 s) :=
    fun hm => (parenSpace_noDot s hnd '.' hm) rfl
  have hy : '.' ∉ padCircledBlocks (pad_kanji_number
      (padParenSpaceRule (titleStages1to6 s))) :=
    fun hm => (titleDotFree s hnd '.' hm) rfl
  have hz : '.' ∉ collapseSpaces (padCircledBlocks (pad_kanji_number
      (padParenSpaceRule (titleStages1to6 s)))) := by
    intro hm
    have hsp : (' ' : Char) ≠ '.' := by decide
    have hyall : ∀ c ∈ padCircledBlocks (pad_kanji_number
        (padParenSpaceRule (titleStages1to6 s))), c ≠ '.' :=
      fun c hc he => hy (he ▸ hc)
    exact (collapseSpaces_all hsp hyall '.' hm) rfl
  rw [formatTitleList, titleThroughParenRules,
    pad_numeric_only_string_enclosed_in_round_brackets,
    padParenExtRule_of_none (findParenB_none hx1),
    padBareRule_of_none (findBare_none hy),
    stripSpacesBeforeExt_of_noDot hz]

/-!
## Canonical (fixed-point) inputs
-/



/-- `wsOK` passes to the tail. -/
theorem wsOK_tail {c : Char} {cs : List Char} (h : wsOK (c :: cs) = true) :
    wsOK cs = true := by
  cases cs with
  | nil => rfl
  | cons d rest =>
    rw [wsOK, Bool.and_eq_true] at h
    exact h.2

/-- `wsOK` passes to suffixes. -/
theorem wsOK_sfx : ∀ {s t : List Char}, wsOK s = true → t <:+ s → wsOK t = true := by
  intro s
  induction s with
  | nil =>
    intro t h ht
    rcases ht with ⟨pre, hp⟩
    rcases List.append_eq_nil.mp hp with ⟨-, rfl⟩
    rfl
  | cons c cs ih =>
    intro t h ht
    rcases sfx_cases ht with rfl | ht2
    · exact h
    · exact ih (wsOK_tail h) ht2

/-- A pointwise-identity map is the identity. -/
theorem map_id_pt {f : Char → Char} :
    ∀ {l : List Char}, (∀ c ∈ l, f c = c) → l.map f = l := by
  intro l
  induction l with
  | nil => intro _; rfl
  | cons c cs ih =>
    intro h
    rw [List.map_cons, h c (List.mem_cons_self c cs),
      ih (fun x hx => h x (List.mem_cons_of_mem c hx))]

/-- On a string with canonical whitespace discipline, collapsing whitespace
is the identity (each single space is rewritten to itself). -/
theorem collapseSpaces_id {s : List Char} (h : wsOK s = true) : collapseSpaces s = s := by
  rw [collapseSpaces]
  apply subScan_self_of_fix mCollapse s.length s (Nat.le_refl _)
  intro t ht r rest hm
  have hwt : wsOK t = true := wsOK_sfx h ht
  cases t with
  | nil => simp [mCollapse] at hm
  | cons c cs =>
    by_cases hw : isWS c = true
    · rw [mCollapse, if_pos hw, Option.some.injEq, Prod.mk.injEq] at hm
      obtain ⟨hr, hrest⟩ := hm
      cases cs with
      | nil =>
        rw [wsOK, hw] at hwt
        simp only [Bool.not_true, Bool.false_or, beq_iff_eq] at hwt
        subst hwt
        have he : (' ' :: ([] : List Char)).dropWhile isWS = [] := rfl
        rw [he] at hrest
        refine ⟨?_, ?_, ?_⟩
        · rw [← hr, ← hrest]; rfl
        · rw [← hrest]; simp
        · rw [← hrest]; exact ⟨[' '], rfl⟩
      | cons d ds =>
        rw [wsOK, Bool.and_eq_true] at hwt
        have h1 := hwt.1
        rw [hw] at h1
        simp only [Bool.not_true, Bool.false_or, Bool.and_eq_true, beq_iff_eq,
          Bool.not_eq_true'] at h1
        obtain ⟨hc, hdns⟩ := h1
        subst hc
        have he : (' ' :: d :: ds).dropWhile isWS = d :: ds := by
          rw [List.dropWhile_cons, if_pos hw, List.dropWhile_cons, if_neg (by rw [hdns]; simp)]
        rw [he] at hrest
        refine ⟨?_, ?_, ?_⟩
        · rw [← hr, ← hrest]; rfl
        · rw [← hrest]; simp
        · rw [← hrest]; exact sfx_cons ' ' (d :: ds)
    · rw [mCollapse, if_neg hw] at hm
      exact absurd hm (by simp)

/-- On a strict-canonical string every stage of `format_book_title` is the
identity, so the whole pipeline is. -/
theorem canonical_format_id (s : String) (h : canonicalTitleB s = true) :
    format_book_title s = s := by
  rw [canonicalTitleB] at h
  simp only [Bool.and_eq_true] at h
  obtain ⟨⟨⟨⟨⟨⟨⟨hA, hB⟩, hC⟩, hD⟩, hE⟩, hF⟩, hG⟩, hH⟩ := h
  have hall := List.all_eq_true.mp hA
  have hfacts : ∀ c ∈ s.data, isFwAlnum c = false ∧ isUnsafe c = false ∧
      isFwParen c = false ∧ isColon c = false ∧ kanjiClass.contains c = false ∧
      isCircledAny c = false := by
    intro c hc
    have hx := hall c hc
    simp only [Bool.and_eq_true, Bool.not_eq_true'] at hx
    exact ⟨hx.1.1.1.1.1, hx.1.1.1.1.2, hx.1.1.1.2, hx.1.1.2, hx.1.2, hx.2⟩
  have e1 : s.data.map toHalfwidth = s.data :=
    map_id_pt (fun c hc => by
      rw [toHalfwidth, if_neg (by rw [(hfacts c hc).1]; exact Bool.false_ne_true)])
  have e2 : s.data.map toSafe = s.data :=
    map_id_pt (fun c hc => by
      rw [toSafe, if_neg (by rw [(hfacts c hc).2.1]; exact Bool.false_ne_true)])
  have e3 : s.data.map toHalfParen = s.data :=
    map_id_pt (fun c hc => by
      rw [toHalfParen, if_neg (by rw [(hfacts c hc).2.2.1]; exact Bool.false_ne_true)])
  have e4 : stripPromoSpans s.data = s.data := by
    rw [stripPromoSpans]
    exact subScan_self_of_scanNone mAnn1 s.data hB s.data.length
  have e5 : stripPublisherSpans s.data = s.data := by
    rw [stripPublisherSpans]
    exact subScan_self_of_scanNone mAnn2 s.data hC s.data.length
  have e6 : s.data.map colonToSpace = s.data :=
    map_id_pt (fun c hc => by
      rw [colonToSpace, if_neg (by rw [(hfacts c hc).2.2.2.1]; exact Bool.false_ne_true)])
  have e7 : collapseSpaces s.data = s.data := collapseSpaces_id hD
  have e8 : padParenSpaceRule s.data = s.data :=
    padParenSpaceRule_of_none (Option.isNone_iff_eq_none.mp hE)
  have e9 : padParenExtRule s.data = s.data :=
    padParenExtRule_of_none (Option.isNone_iff_eq_none.mp hF)
  have e10 : pad_kanji_number s.data = s.data :=
    pad_kanji_number_of_none (List.find?_eq_none.mpr (fun x hx => by
      rw [(hfacts x hx).2.2.2.2.1]; exact Bool.false_ne_true))
  have hcirc : ∀ x ∈ s.data, inRange '①' '⑨' x = false ∧ inRange '⑴' '⑼' x = false ∧
      inRange '⒈' '⒐' x = false ∧ inRange '⓵' '⓽' x = false := by
    intro x hx
    have hh := (hfacts x hx).2.2.2.2.2
    rw [isCircledAny] at hh
    simp only [Bool.or_eq_false_iff] at hh
    exact ⟨hh.1.1.1, hh.1.1.2, hh.1.2, hh.2⟩
  have ec1 : padCircledRule '①' '⑨' 0x242F s.data = s.data :=
    padCircledRule_of_none (List.find?_eq_none.mpr (fun x hx => by
      rw [(hcirc x hx).1]; exact Bool.false_ne_true))
  have ec2 : padCircledRule '⑴' '⑼' 0x2443 s.data = s.data :=
    padCircledRule_of_none (List.find?_eq_none.mpr (fun x hx => by
      rw [(hcirc x hx).2.1]; exact Bool.false_ne_true))
  have ec3 : padCircledRule '⒈' '⒐' 0x2457 s.data = s.data :=
    padCircledRule_of_none (List.find?_eq_none.mpr (fun x hx => by
      rw [(hcirc x hx).2.2.1]; exact Bool.false_ne_true))
  have ec4 : padCircledRule '⓵' '⓽' 0x24C4 s.data = s.data :=
    padCircledRule_of_none (List.find?_eq_none.mpr (fun x hx => by
      rw [(hcirc x hx).2.2.2]; exact Bool.false_ne_true))
  have e15 : padBareRule s.data = s.data :=
    padBareRule_of_none (Option.isNone_iff_eq_none.mp hG)
  have e16 : stripSpacesBeforeExt s.data = s.data := by
    rw [stripSpacesBeforeExt]
    exact subScan_self_of_scanNone mStripExt s.data hH s.data.length
  rw [format_book_title, formatTitleList, titleThroughParenRules,
    pad_numeric_only_string_enclosed_in_round_brackets, titleStages1to6,
    titleCharRewrites, padCircledBlocks]
  rw [e1, e2, e3, e4, e5, e6, e7, e8, e9, e10, ec1, ec2, ec3, ec4, e15, e7, e16]

/-!
## Claim theorems
-/

/-- C1 (counterexample to the claim as stated): the kanji numbering rule
emits its marker without zero padding — `format_book_title` maps
`"A 参巻 B.epub"` to `"A 3 B.epub"`, whose only digit is the single `'3'`,
not a two-digit zero-padded token. -/
theorem claim_C1_counterexample :
    format_book_title "A 参巻 B.epub" = "A 3 B.epub" ∧
    (format_book_title "A 参巻 B.epub").data.filter Char.isDigit = ['3'] := by
  constructor <;> decide

/-- C1 (amended): for every input string the output of `format_book_title`
contains none of the filesystem-unsafe characters, no fullwidth Latin
letters or digits and no fullwidth round brackets; markers normalized by the
parenthesized, circled and bare-digit sub-rules are emitted as zero-padded
decimal tokens of width at least two with single-space separation (no
trailing space directly before the extension), while kanji numeral markers
are emitted unpadded as 1-10. -/
theorem claim_C1_amended :
    (∀ s : String, ((format_book_title s).data.all safeOutChar) = true) ∧
    format_book_title "A(3) B.epub" = "A 03 B.epub" ∧
    format_book_title "A③.epub" = "A 03.epub" ∧
    format_book_title "A 5巻.epub" = "A 05.epub" ∧
    format_book_title "A 参巻 B.epub" = "A 3 B.epub" := by
  refine ⟨?_, by decide, by decide, by decide, by decide⟩
  intro s
  have hdata : ∀ l : List Char, (String.mk l).data = l := fun l => rfl
  rw [format_book_title, hdata]
  exact List.all_eq_true.mpr (formatTitleList_safe s.data)

/-- C2 (counterexample to the claim as stated): sub-rule (a) rewrites two
numbering spans in a single call — both `(1)` and `(2)` are replaced, each
with the number of the first search match. -/
theorem claim_C2_counterexample :
    format_book_title "A (1) B (2) C.epub" = "A 01 B 01 C.epub" ∧
    ((format_book_title "A (1) B (2) C.epub").data.filter Char.isDigit).length = 4 := by
  constructor <;> decide

/-- C2 (amended): the numbering sub-rules are evaluated in the fixed order
(a)-(e) and each performs its search at most once per call, rewriting only
when its search pattern matches (a failed search leaves the string
untouched); however, a firing sub-rule's substitution rewrites every
non-overlapping occurrence of its substitution pattern, all with the number
taken from the first search match, so one call may rewrite several spans. -/
theorem claim_C2_amended :
    format_book_title "A (1) B (2) C.epub" = "A 01 B 01 C.epub" ∧
    (∀ s : List Char, findParenA s = none → padParenSpaceRule s = s) ∧
    (∀ s : List Char, findParenB s = none → padParenExtRule s = s) ∧
    (∀ s : List Char, s.find? (fun c => kanjiClass.contains c) = none →
      pad_kanji_number s = s) ∧
    (∀ (lo hi : Char) (off : Nat) (s : List Char), s.find? (inRange lo hi) = none →
      padCircledRule lo hi off s = s) ∧
    (∀ s : List Char, findBare s = none → padBareRule s = s) := by
  refine ⟨by decide, ?_, ?_, ?_, ?_, ?_⟩
  · exact fun s h => padParenSpaceRule_of_none h
  · exact fun s h => padParenExtRule_of_none h
  · exact fun s h => pad_kanji_number_of_none h
  · exact fun lo hi off s h => padCircledRule_of_none h
  · exact fun s h => padBareRule_of_none h

/-- Witness for C2: the guarded sub-rules applied at concrete inputs whose
searches fail. -/
theorem claim_C2_witness :
    padParenSpaceRule "ab".data = "ab".data ∧
    padParenExtRule "ab".data = "ab".data ∧
    pad_kanji_number "ab".data = "ab".data ∧
    padCircledRule '①' '⑨' 0x242F "ab".data = "ab".data ∧
    padBareRule "ab".data = "ab".data :=
  ⟨claim_C2_amended.2.1 "ab".data (by decide),
   claim_C2_amended.2.2.1 "ab".data (by decide),
   claim_C2_amended.2.2.2.1 "ab".data (by decide),
   claim_C2_amended.2.2.2.2.1 '①' '⑨' 0x242F "ab".data (by decide),
   claim_C2_amended.2.2.2.2.2 "ab".data (by decide)⟩

/-- C3 (counterexample to the claim as stated): the code does not map
`"Title 参 巻.epub"` to `"Title 3.epub"` — after the kanji rule produces the
intermediate `"Title 3 .epub"`, the bare-digit rule re-pads the digit before
the extension. -/
theorem claim_C3_counterexample :
    format_book_title "Title 参 巻.epub" ≠ "Title 3.epub" := by decide

/-- C3 (amended): `format_book_title` maps `"Title (1) Sub.epub"` to
`"Title 01 Sub.epub"`, `"Title(12).epub"` to `"Title 12.epub"`,
`"Title 参 巻.epub"` to `"Title 03.epub"` (the kanji rule's intermediate
`"Title 3 .epub"` is caught by the bare-digit rule, which zero-pads the
digit and removes the space before the extension), and `"Title①.epub"` to
`"Title 01.epub"`. -/
theorem claim_C3_amended :
    format_book_title "Title (1) Sub.epub" = "Title 01 Sub.epub" ∧
    format_book_title "Title(12).epub" = "Title 12.epub" ∧
    format_book_title "Title 参 巻.epub" = "Title 03.epub" ∧
    format_book_title "Title①.epub" = "Title 01.epub" := by
  refine ⟨?_, ?_, ?_, ?_⟩ <;> decide

/-- C4 (counterexample to the claim as stated): `format_book_title` is not
idempotent on its own outputs.  A newline blocks the annotation regex (whose
`.` does not match newlines) in the first pass, whitespace collapsing then
turns the newline into a space, and the second pass strips the now-matching
annotation. -/
theorem claim_C4_counterexample :
    format_book_title (format_book_title "【a\n【b付き】c付き】.epub") ≠
      format_book_title "【a\n【b付き】c付き】.epub" := by decide

/-- C4 (amended): `format_book_title` is idempotent on inputs in strict
canonical form (no fullwidth alphanumerics, unsafe symbols, fullwidth round
brackets, colons, kanji-class or circled-digit characters; no annotation,
parenthesized-number, bare-digit or strip-before-extension match; canonical
whitespace); on such inputs it acts as the identity.  The claim's
parenthetical "such as any output of normalizeTitle" is dropped: it is
refuted by the counterexample, since outputs may retain bracketed spans that
a second pass removes. -/
theorem claim_C4_amended : ∀ s : String, canonicalTitleB s = true →
    format_book_title s = s ∧
    format_book_title (format_book_title s) = format_book_title s := by
  intro s h
  have h1 := canonical_format_id s h
  exact ⟨h1, by rw [h1]; exact h1⟩

/-- Witness for C4: a concrete strict-canonical string on which the pipeline
is the identity and hence idempotent. -/
theorem claim_C4_witness :
    format_book_title "Title Sub.epub" = "Title Sub.epub" ∧
    format_book_title (format_book_title "Title Sub.epub") =
      format_book_title "Title Sub.epub" :=
  claim_C4_amended "Title Sub.epub" (by decide)

/-- C5 (counterexample to the claim as stated): a `(...)` span merely
containing the publisher token `BOOKS` is not removed (the token must
immediately precede the closing bracket), and a `【...】` span whose content
is exactly the marketing token `付き` is not removed (the lazy `.+?` requires
at least one character before the token). -/
theorem claim_C5_counterexample :
    format_book_title "(x BOOKS y)Title.epub" = "(x BOOKS y)Title.epub" ∧
    format_book_title "【付き】Title.epub" = "【付き】Title.epub" := by
  constructor <;> decide

/-- C5 (amended): stage 4 removes bracket-delimited annotation spans,
brackets included: a `【...】` span is removed when its content is at least
one character followed by one of the fixed marketing tokens, and a span
opened by `(`, `＜` or `〈` and closed by `)`, `＞` or `〉` is removed when its
content ends with one of the fixed publisher tokens (immediately before the
closing bracket); in particular `"【電子版限定特典付き】Title.epub"` maps to
`"Title.epub"`. -/
theorem claim_C5_amended :
    format_book_title "【電子版限定特典付き】Title.epub" = "Title.epub" ∧
    format_book_title "(xBOOKS)Title.epub" = "Title.epub" ∧
    format_book_title "＜x文庫＞Title.epub" = "Title.epub" ∧
    format_book_title "〈シリーズ〉x.epub" = "x.epub" ∧
    stripPromoSpans "【電子版限定特典付き】Title".data = "Title".data ∧
    stripPublisherSpans "(xBOOKS)Title".data = "Title".data := by
  refine ⟨?_, ?_, ?_, ?_, ?_, ?_⟩ <;> decide

/-- C6: the unsafe-symbol rewriter acts pointwise; it replaces each of the
characters `<`, `>`, `:`, `"`, `/`, `\`, `|`, `!`, `?`, `*` with the
character whose codepoint is `0xFEE0` higher (the fullwidth analog, as
tabulated), leaves every other character unchanged, and its output never
contains any of those literal ASCII characters. -/
theorem claim_C6 :
    (∀ s : String, (replace_unsafe_symbol_to_safe_symbol s).data = s.data.map toSafe) ∧
    (∀ s : String,
      ((replace_unsafe_symbol_to_safe_symbol s).data.all (fun c => !(isUnsafe c))) = true) ∧
    (∀ c : Char, isUnsafe c = true → toSafe c = Char.ofNat (c.toNat + 0xFEE0)) ∧
    (∀ c : Char, isUnsafe c = false → toSafe c = c) ∧
    (toSafe '<' = '＜' ∧ toSafe '>' = '＞' ∧ toSafe ':' = '：' ∧ toSafe '"' = '＂' ∧
     toSafe '/' = '／' ∧ toSafe '\\' = '＼' ∧ toSafe '|' = '｜' ∧ toSafe '!' = '！' ∧
     toSafe '?' = '？' ∧ toSafe '*' = '＊') := by
  refine ⟨fun s => rfl, ?_, ?_, ?_, by decide⟩
  · intro s
    have hdata : ∀ l : List Char, (String.mk l).data = l := fun l => rfl
    rw [replace_unsafe_symbol_to_safe_symbol, hdata]
    refine List.all_eq_true.mpr ?_
    intro c hc
    rcases List.mem_map.mp hc with ⟨a, ha, rfl⟩
    rcases toSafe_props a with ⟨he, hu⟩ | ⟨hu, -⟩
    · rw [he, hu]; rfl
    · rw [hu]; rfl
  · intro c h
    rw [toSafe, if_pos h]
  · intro c h
    rw [toSafe, if_neg (by rw [h]; exact Bool.false_ne_true)]

/-- Witness for C6: the shift applied to `'<'` and identity on `'a'`. -/
theorem claim_C6_witness :
    toSafe '<' = Char.ofNat ('<'.toNat + 0xFEE0) ∧ toSafe 'a' = 'a' :=
  ⟨claim_C6.2.2.1 '<' (by decide), claim_C6.2.2.2.1 'a' (by decide)⟩

/-- C7: `format_book_author` is exactly the fullwidth-alphanumeric rewrite
followed by the unsafe-symbol rewrite, with no other transformation; it is a
total function, maps the empty string to the empty string, and maps
`"Ａｕｔｈｏｒ"` to `"Author"`. -/
theorem claim_C7 :
    (∀ s : String, format_book_author s =
      replace_unsafe_symbol_to_safe_symbol (replace_fullwidth_alpha_numeral_to_halfwidth s)) ∧
    format_book_author "" = "" ∧
    format_book_author "Ａｕｔｈｏｒ" = "Author" := by
  refine ⟨fun s => rfl, by decide, by decide⟩

/-- C8: both normalizers are total functions of the embedding (they are
plain Lean functions, so they never fail), the empty string maps to the
empty string under both, and every stage whose pattern or search does not
match is the identity on its input. -/
theorem claim_C8 :
    format_book_title "" = "" ∧ format_book_author "" = "" ∧
    (∀ s : List Char, scanNoneB mAnn1 s = true → stripPromoSpans s = s) ∧
    (∀ s : List Char, scanNoneB mAnn2 s = true → stripPublisherSpans s = s) ∧
    (∀ s : List Char, findParenA s = none → padParenSpaceRule s = s) ∧
    (∀ s : List Char, findParenB s = none → padParenExtRule s = s) ∧
    (∀ s : List Char, s.find? (fun c => kanjiClass.contains c) = none →
      pad_kanji_number s = s) ∧
    (∀ (lo hi : Char) (off : Nat) (s : List Char), s.find? (inRange lo hi) = none →
      padCircledRule lo hi off s = s) ∧
    (∀ s : List Char, findBare s = none → padBareRule s = s) ∧
    (∀ s : List Char, scanNoneB mStripExt s = true → stripSpacesBeforeExt s = s) := by
  refine ⟨by decide, by decide, ?_, ?_, ?_, ?_, ?_, ?_, ?_, ?_⟩
  · intro s h
    rw [stripPromoSpans]
    exact subScan_self_of_scanNone mAnn1 s h s.length
  · intro s h
    rw [stripPublisherSpans]
    exact subScan_self_of_scanNone mAnn2 s h s.length
  · exact fun s h => padParenSpaceRule_of_none h
  · exact fun s h => padParenExtRule_of_none h
  · exact fun s h => pad_kanji_number_of_none h
  · exact fun lo hi off s h => padCircledRule_of_none h
  · exact fun s h => padBareRule_of_none h
  · intro s h
    rw [stripSpacesBeforeExt]
    exact subScan_self_of_scanNone mStripExt s h s.length

/-- Witness for C8: every guarded stage applied at a concrete input whose
pattern does not match. -/
theorem claim_C8_witness :
    stripPromoSpans "xy".data = "xy".data ∧
    stripPublisherSpans "xy".data = "xy".data ∧
    padParenSpaceRule "xy".data = "xy".data ∧
    padParenExtRule "xy".data = "xy".data ∧
    pad_kanji_number "xy".data = "xy".data ∧
    padCircledRule '⑴' '⑼' 0x2443 "xy".data = "xy".data ∧
    padBareRule "xy".data = "xy".data ∧
    stripSpacesBeforeExt "xy".data = "xy".data :=
  ⟨claim_C8.2.2.1 "xy".data (by decide),
   claim_C8.2.2.2.1 "xy".data (by decide),
   claim_C8.2.2.2.2.1 "xy".data (by decide),
   claim_C8.2.2.2.2.2.1 "xy".data (by decide),
   claim_C8.2.2.2.2.2.2.1 "xy".data (by decide),
   claim_C8.2.2.2.2.2.2.2.1 '⑴' '⑼' 0x2443 "xy".data (by decide),
   claim_C8.2.2.2.2.2.2.2.2.1 "xy".data (by decide),
   claim_C8.2.2.2.2.2.2.2.2.2 "xy".data (by decide)⟩

/-- C9 (counterexample to the claim as stated): `"x 1.ｅｐｕｂ"` contains no
occurrence of the token `.epub`, yet the extension-anchored bare-digit rule
fires, because the earlier fullwidth rewrite materializes `.epub` before
stage 7 runs. -/
theorem claim_C9_counterexample :
    hasExtSomewhere "x 1.ｅｐｕｂ".data = false ∧
    format_book_title "x 1.ｅｐｕｂ" = "x 01.epub" := by
  constructor <;> decide

/-- C9 (amended): for every input string containing no `'.'` (so that no
stage can materialize an `.epub` token), `format_book_title` coincides with
the pipeline from which the extension-anchored steps — the
parenthesized-before-extension rule, the bare-digit rule and the final strip
of spaces before the extension — are removed; stages 1-6 and the other
numbering rules apply as usual. -/
theorem claim_C9_amended : ∀ s : String, '.' ∉ s.data →
    format_book_title s = format_book_title_without_extension_rules s := by
  intro s h
  rw [format_book_title, format_book_title_without_extension_rules,
    formatTitle_noExt s.data h]

/-- Witness for C9: a concrete dot-free input. -/
theorem claim_C9_witness :
    format_book_title "ab c" = format_book_title_without_extension_rules "ab c" :=
  claim_C9_amended "ab c" (by decide)

/-- C10: `pad_kanji_number`'s character class is built with `'|'.join`, so it
contains the literal `'|'`, and applied directly to `"a|b"` the function
rewrites the bar to the text `None` (the rendering of Python's `None` for a
missing dictionary key), yielding `"a None b"`; but inside
`format_book_title` this branch is unreachable: the unsafe-symbol stage has
already replaced every `'|'` by `'｜'`, and no later stage before the kanji
rule introduces one, so the string `pad_kanji_number` receives there is
always `'|'`-free. -/
theorem claim_C10 :
    pad_kanji_number "a|b".data = "a None b".data ∧
    (∀ s : String, ((titleThroughParenRules s.data).all (fun c => !(c == '|'))) = true) := by
  refine ⟨by decide, ?_⟩
  intro s
  refine List.all_eq_true.mpr ?_
  intro c hc
  have hne := titleThroughParenRules_noBar s.data c hc
  simp only [Bool.not_eq_true', beq_eq_false_iff_ne, ne_eq]
  exact hne
